import Mathlib

/-!
# Verification of the employee-process matcher core

A shallow embedding of the vacancy-consistent assignment core of the
`employee-matcher` repository: the transactional functions of
`src/database.py` (`update_process_vacancy`, `add_employee`,
`update_employee`, `delete_employee`) and the pure matching functions of
`src/matching_engine.py` (`find_matching_process`,
`get_process_suggestions`).

The SQLite tables `processes` and `employees` are modelled as lists of
records; each Python function becomes a pure function from the database
state to a result together with the new state.  A function that issues
`ROLLBACK` before returning an error is modelled by returning the original
state on that path, which is exactly what a rolled-back SQLite transaction
leaves behind.  `VACUUM` (`purge_deleted_emails`) does not change the
logical contents of the tables and is omitted.
-/

/-! ## Python string primitives

`database.py` normalizes emails with `email.strip().lower()` and compares
stored emails case-insensitively via SQL `LOWER`.  We model `str.strip`
(removal of leading and trailing whitespace) and `str.lower` / SQL `LOWER`
(ASCII lowercasing, which is what the emails handled by the program
consist of) on the character list underlying a `String`.
-/

/-- The whitespace characters removed by Python's `str.strip()`. -/
def pySpace (c : Char) : Bool :=
  c == ' ' || c == '\t' || c == '\n' || c == '\r' || c == '\x0b' || c == '\x0c'

/-- ASCII lowercasing of one character, as done by `str.lower()` and SQL
`LOWER` on the ASCII emails handled by the program. -/
def lowerChar (c : Char) : Char :=
  if 65 ≤ c.toNat ∧ c.toNat ≤ 90 then Char.ofNat (c.toNat + 32) else c

/-- `str.lower()` on the underlying character data. -/
def pyLower (s : String) : String :=
  ⟨s.data.map lowerChar⟩

/-- `str.strip()` on a character list: drop leading and trailing whitespace. -/
def pyStripList (l : List Char) : List Char :=
  ((l.dropWhile pySpace).reverse.dropWhile pySpace).reverse

/-- `str.strip()` on strings. -/
def pyStrip (s : String) : String :=
  ⟨pyStripList s.data⟩

/-- The email normalization performed by `add_employee` and
`update_employee`: `email.strip().lower()`. -/
def normEmail (s : String) : String :=
  pyLower (pyStrip s)

theorem toNat_ofNat_of_lt {n : Nat} (h : n < 55296) : (Char.ofNat n).toNat = n := by
  rw [Char.ofNat, dif_pos (Or.inl h)]
  rfl

theorem lowerChar_lowerChar (c : Char) : lowerChar (lowerChar c) = lowerChar c := by
  unfold lowerChar
  split
  · rename_i h
    have hval : (Char.ofNat (c.toNat + 32)).toNat = c.toNat + 32 :=
      toNat_ofNat_of_lt (by omega)
    rw [if_neg]
    rw [hval]
    omega
  · rfl

theorem beq_eq_false_of_toNat_ne {c d : Char} (h : c.toNat ≠ d.toNat) :
    (c == d) = false := by
  cases hb : c == d
  · rfl
  · exact absurd (congrArg Char.toNat (eq_of_beq hb)) h

theorem pySpace_eq_false_of_toNat {c : Char}
    (h : c.toNat ≠ 32 ∧ c.toNat ≠ 9 ∧ c.toNat ≠ 10 ∧ c.toNat ≠ 13 ∧
         c.toNat ≠ 11 ∧ c.toNat ≠ 12) : pySpace c = false := by
  have t1 : (' ' : Char).toNat = 32 := by decide
  have t2 : ('\t' : Char).toNat = 9 := by decide
  have t3 : ('\n' : Char).toNat = 10 := by decide
  have t4 : ('\r' : Char).toNat = 13 := by decide
  have t5 : ('\x0b' : Char).toNat = 11 := by decide
  have t6 : ('\x0c' : Char).toNat = 12 := by decide
  unfold pySpace
  rw [beq_eq_false_of_toNat_ne (t1 ▸ h.1),
      beq_eq_false_of_toNat_ne (t2 ▸ h.2.1),
      beq_eq_false_of_toNat_ne (t3 ▸ h.2.2.1),
      beq_eq_false_of_toNat_ne (t4 ▸ h.2.2.2.1),
      beq_eq_false_of_toNat_ne (t5 ▸ h.2.2.2.2.1),
      beq_eq_false_of_toNat_ne (t6 ▸ h.2.2.2.2.2)]
  rfl

theorem lowerChar_pySpace (c : Char) : pySpace (lowerChar c) = pySpace c := by
  unfold lowerChar
  split
  · rename_i h
    have hval : (Char.ofNat (c.toNat + 32)).toNat = c.toNat + 32 :=
      toNat_ofNat_of_lt (by omega)
    rw [pySpace_eq_false_of_toNat (by rw [hval]; omega),
        pySpace_eq_false_of_toNat (by omega)]
  · rfl

theorem dropWhile_dropWhile (p : α → Bool) (l : List α) :
    (l.dropWhile p).dropWhile p = l.dropWhile p := by
  cases hd : l.dropWhile p with
  | nil => rfl
  | cons a t =>
    have h2 := List.head?_dropWhile_not p l
    rw [hd] at h2
    simp only [List.head?_cons] at h2
    rw [List.dropWhile_cons_of_neg (by simp [h2])]

theorem pyStripList_prefix (l : List Char) :
    pyStripList l <+: l.dropWhile pySpace := by
  unfold pyStripList
  have h := List.dropWhile_suffix (l := (l.dropWhile pySpace).reverse) pySpace
  have h2 : ((l.dropWhile pySpace).reverse.dropWhile pySpace).reverse <+:
      (l.dropWhile pySpace).reverse.reverse := by
    rw [List.reverse_prefix]
    exact h
  rwa [List.reverse_reverse] at h2

theorem dropWhile_pyStripList (l : List Char) :
    (pyStripList l).dropWhile pySpace = pyStripList l := by
  cases hd : pyStripList l with
  | nil => rfl
  | cons a t =>
    have hpre := pyStripList_prefix l
    rw [hd] at hpre
    obtain ⟨rest, hrest⟩ := hpre
    have h2 := List.head?_dropWhile_not pySpace l
    rw [← hrest] at h2
    simp only [List.cons_append, List.head?_cons] at h2
    rw [List.dropWhile_cons_of_neg (by simp [h2])]

theorem pyStripList_idem (l : List Char) :
    pyStripList (pyStripList l) = pyStripList l := by
  conv_lhs => rw [pyStripList]
  rw [dropWhile_pyStripList l]
  rw [pyStripList, List.reverse_reverse, dropWhile_dropWhile]

theorem pyStripList_map_lower (l : List Char) :
    pyStripList (l.map lowerChar) = (pyStripList l).map lowerChar := by
  have hcong : (pySpace ∘ lowerChar) = pySpace := funext lowerChar_pySpace
  have hmr : ∀ x : List Char, (x.map lowerChar).reverse = x.reverse.map lowerChar := by
    intro x
    rw [List.map_reverse]
  unfold pyStripList
  rw [List.dropWhile_map, hcong, hmr, List.dropWhile_map, hcong, hmr]

theorem pyLower_pyLower (s : String) : pyLower (pyLower s) = pyLower s := by
  unfold pyLower
  rw [List.map_map]
  rw [show (lowerChar ∘ lowerChar) = lowerChar from funext lowerChar_lowerChar]

theorem pyStrip_normEmail (s : String) : pyStrip (normEmail s) = normEmail s := by
  unfold normEmail pyLower pyStrip
  rw [pyStripList_map_lower, pyStripList_idem]

theorem pyLower_normEmail (s : String) : pyLower (normEmail s) = normEmail s := by
  unfold normEmail
  rw [pyLower_pyLower]

theorem normEmail_normEmail (s : String) : normEmail (normEmail s) = normEmail s := by
  conv_lhs => rw [normEmail, pyStrip_normEmail]
  rw [pyLower_normEmail]

/-! ## Data model

The two SQLite tables of `database.py`.  `created_at` / `assigned_at`
timestamps are display-only (used by the history aggregation, not by any
of the transactional logic) and are omitted.  `id` columns are
`AUTOINCREMENT` primary keys; `DB.nextEmpId` models the employee
autoincrement counter.  `vacancy` is a SQLite `INTEGER`, modelled as `Int`
(that it stays non-negative is a property to be proved, not assumed).
-/

/-- One row of the `processes` table. -/
structure Process where
  id : Nat
  name : String
  potential : String
  communication : String
  vacancy : Int
  deriving DecidableEq, Repr

/-- One row of the `employees` table. -/
structure Employee where
  id : Nat
  name : String
  email : String
  potential : String
  communication : String
  process_id : Option Nat
  process_name : Option String
  deriving DecidableEq, Repr

/-- The database state: the two tables plus the employee autoincrement
counter. -/
structure DB where
  processes : List Process
  employees : List Employee
  nextEmpId : Nat
  deriving DecidableEq, Repr

/-- Result of a mutating call: the `(bool, message)` pair returned by the
Python function, plus the database state after the call (the original
state whenever the transaction was rolled back). -/
structure OpResult where
  ok : Bool
  msg : String
  db : DB
  deriving DecidableEq, Repr

/-- The SQL statement `UPDATE processes SET vacancy = f(vacancy) WHERE
process_name = ?`: every row whose name matches is updated. -/
def mapVacancy (ps : List Process) (pname : String) (f : Int → Int) : List Process :=
  ps.map (fun p => if p.name == pname then { p with vacancy := f p.vacancy } else p)

/-! ## The transactional operations of `database.py` -/

/-- `update_process_vacancy(process_name, change)` (database.py:95-146).

If `change < 0` the SQL clamps at zero per row
(`CASE WHEN vacancy + ? < 0 THEN 0 ELSE vacancy + ? END`), otherwise it
adds unclamped.  If no row matched (`cursor.rowcount == 0`) the function
returns `False` without committing; otherwise it commits and the final
re-verification `SELECT` necessarily finds the process, so it returns
`True`. -/
def update_process_vacancy (db : DB) (process_name : String) (change : Int) :
    Bool × DB :=
  let ps :=
    if change < 0 then
      mapVacancy db.processes process_name
        (fun v => if v + change < 0 then 0 else v + change)
    else
      mapVacancy db.processes process_name (fun v => v + change)
  if (db.processes.filter (fun p => p.name == process_name)).isEmpty then
    (false, db)
  else
    (true, { db with processes := ps })

/-- `add_employee(name, email, potential, communication, process_name)`
(database.py:148-247).

The email is normalized with `strip().lower()`; the duplicate check is
`SELECT COUNT(*) ... WHERE LOWER(email) = LOWER(?)` over all employees.
With a requested process: not found → rollback; vacancy `<= 0` →
rollback; otherwise the clamped decrement `UPDATE` runs (its
`rowcount == 0` re-check cannot fire once the `SELECT` found the row) and
the employee row is inserted with the process id and name.  Python's
`if process_name:` treats `None` as "no assignment", modelled by
`Option`. -/
def add_employee (db : DB) (name email potential communication : String)
    (process_name : Option String) : OpResult :=
  let email := normEmail email
  if db.employees.any (fun e => pyLower e.email == pyLower email) then
    ⟨false, "Email already exists in the database", db⟩
  else
    match process_name with
    | none =>
        ⟨true, "Employee added successfully",
          { db with
              employees := db.employees ++
                [⟨db.nextEmpId, name, email, potential, communication, none, none⟩],
              nextEmpId := db.nextEmpId + 1 }⟩
    | some pname =>
        match db.processes.find? (fun p => p.name == pname) with
        | none => ⟨false, "Process " ++ pname ++ " not found", db⟩
        | some pr =>
            if pr.vacancy ≤ 0 then
              ⟨false, "No vacancy available in " ++ pname, db⟩
            else
              let ps := mapVacancy db.processes pname
                (fun v => if 0 < v then v - 1 else 0)
              if (db.processes.filter (fun p => p.name == pname)).isEmpty then
                ⟨false, "Failed to update vacancy for " ++ pname, db⟩
              else
                ⟨true, "Employee added successfully",
                  { processes := ps,
                    employees := db.employees ++
                      [⟨db.nextEmpId, name, email, potential, communication,
                        some pr.id, some pname⟩],
                    nextEmpId := db.nextEmpId + 1 }⟩

/-- The tail of `update_employee` (database.py:436-457): the `UPDATE
employees SET ... WHERE id = ?` statement followed by the
`cursor.rowcount == 0` check (rollback if no row matched) and the commit.
`ps` is the staged `processes` table produced by the vacancy updates of
the same transaction. -/
def finishUpdate (db : DB) (ps : List Process) (employee_id : Nat)
    (name email potential communication : String) (process_id : Option Nat)
    (process_name : Option String) : OpResult :=
  if (db.employees.filter (fun e => e.id == employee_id)).isEmpty then
    ⟨false, "Employee not found or no changes made", db⟩
  else
    ⟨true, "Employee updated successfully",
      { processes := ps,
        employees := db.employees.map (fun e =>
          if e.id == employee_id then
            { e with
                name := name, email := email, potential := potential,
                communication := communication, process_id := process_id,
                process_name := process_name }
          else e),
        nextEmpId := db.nextEmpId }⟩

/-- `update_employee(employee_id, name, email, potential, communication,
process_name)` (database.py:333-467).

Order of the checks follows the source: duplicate-email check (excluding
the employee itself) first, then the employee lookup.  If the assignment
changed, the old process's vacancy is released (`+1`, a missing old
process is tolerated), then the new process is validated against the
staged table and its vacancy decremented; every failure issues `ROLLBACK`,
so the persisted state on a failure is the original one.  If the
assignment is unchanged the processes table is untouched and the
`process_id` is refreshed from the catalog (`None` if the process is
gone). -/
def update_employee (db : DB) (employee_id : Nat)
    (name email potential communication : String)
    (process_name : Option String) : OpResult :=
  let email := normEmail email
  if db.employees.any (fun e =>
      pyLower e.email == pyLower email && e.id != employee_id) then
    ⟨false, "Email already exists for another employee", db⟩
  else
    match db.employees.find? (fun e => e.id == employee_id) with
    | none => ⟨false, "Employee not found", db⟩
    | some emp =>
      if emp.process_name ≠ process_name then
        let ps1 :=
          match emp.process_name with
          | some oldp => mapVacancy db.processes oldp (fun v => v + 1)
          | none => db.processes
        match process_name with
        | some np =>
          match ps1.find? (fun p => p.name == np) with
          | none => ⟨false, "Process " ++ np ++ " not found", db⟩
          | some pr =>
            if pr.vacancy ≤ 0 then
              ⟨false, "No vacancy available in " ++ np, db⟩
            else
              let ps2 := mapVacancy ps1 np (fun v => if 0 < v then v - 1 else 0)
              if (ps1.filter (fun p => p.name == np)).isEmpty then
                ⟨false, "Failed to update vacancy for " ++ np, db⟩
              else
                finishUpdate db ps2 employee_id name email potential
                  communication (some pr.id) (some np)
        | none =>
            finishUpdate db ps1 employee_id name email potential
              communication none none
      else
        let process_id :=
          match process_name with
          | some np => (db.processes.find? (fun p => p.name == np)).map (·.id)
          | none => none
        finishUpdate db db.processes employee_id name email potential
          communication process_id process_name

/-- `delete_employee(employee_id)` (database.py:469-536).

Lookup, `DELETE ... WHERE id = ?` (its `rowcount == 0` re-check cannot
fire once the lookup succeeded), then `vacancy + 1` on the held process;
the release deliberately does not check `rowcount`, so a vanished process
is tolerated silently. -/
def delete_employee (db : DB) (employee_id : Nat) : OpResult :=
  match db.employees.find? (fun e => e.id == employee_id) with
  | none => ⟨false, "Employee not found", db⟩
  | some emp =>
    let emps := db.employees.filter (fun e => !(e.id == employee_id))
    if (db.employees.filter (fun e => e.id == employee_id)).isEmpty then
      ⟨false, "Employee could not be deleted", db⟩
    else
      let ps :=
        match emp.process_name with
        | some pn => mapVacancy db.processes pn (fun v => v + 1)
        | none => db.processes
      let pdesc := match emp.process_name with | some s => s | none => "None"
      ⟨true,
        "Employee deleted and process \x27" ++ pdesc ++ "\x27 vacancy updated",
        { processes := ps, employees := emps, nextEmpId := db.nextEmpId }⟩

/-! ## The matching engine (`matching_engine.py`)

`find_matching_process` and `get_process_suggestions` operate on the
process DataFrame (columns `Process_Name`, `Potential`, `Communication`,
`Vacancy`), modelled by the same `Process` record.  `sort_values(...,
ascending=False)` is modelled by `List.insertionSort` with the
corresponding total preorder; pandas does not specify the order of ties
and no claim depends on it. -/

/-- The descending-vacancy order used by
`sort_values('Vacancy', ascending=False)`. -/
def vacGe (a b : Process) : Prop := b.vacancy ≤ a.vacancy

instance : DecidableRel vacGe := fun _ _ => inferInstanceAs (Decidable (_ ≤ _))

instance : IsTotal Process vacGe := ⟨fun a b => le_total b.vacancy a.vacancy⟩

instance : IsTrans Process vacGe :=
  ⟨fun _ _ _ h1 h2 => le_trans h2 h1⟩

/-- `find_matching_process(process_data, potential, communication)`
(matching_engine.py:4-37): filter on potential AND communication AND
vacancy > 0; if empty, relax to potential AND vacancy > 0; sort by vacancy
descending and return the first row (`iloc[0]`), or `None` if empty. -/
def find_matching_process (process_data : List Process)
    (potential communication : String) : Option Process :=
  let matching := process_data.filter (fun p =>
    p.potential == potential && p.communication == communication &&
      decide (0 < p.vacancy))
  let matching2 :=
    if matching.isEmpty then
      process_data.filter (fun p => p.potential == potential && decide (0 < p.vacancy))
    else matching
  (matching2.insertionSort vacGe).head?

/-- The sort key of `get_process_suggestions`:
`sort_values(['relevance', 'Vacancy'], ascending=[False, False])` —
relevance descending, then vacancy descending. -/
def sugGe (a b : Process × Nat) : Prop :=
  b.2 < a.2 ∨ (b.2 = a.2 ∧ b.1.vacancy ≤ a.1.vacancy)

instance : DecidableRel sugGe := fun _ _ => inferInstanceAs (Decidable (_ ∨ _))

instance : IsTotal (Process × Nat) sugGe := by
  constructor
  intro a b
  rcases Nat.lt_trichotomy a.2 b.2 with h | h | h
  · exact Or.inr (Or.inl h)
  · rcases le_total b.1.vacancy a.1.vacancy with hv | hv
    · exact Or.inl (Or.inr ⟨h.symm, hv⟩)
    · exact Or.inr (Or.inr ⟨h, hv⟩)
  · exact Or.inl (Or.inl h)

instance : IsTrans (Process × Nat) sugGe := by
  constructor
  rintro a b c (h1 | ⟨h1, h1v⟩) (h2 | ⟨h2, h2v⟩)
  · exact Or.inl (h2.trans h1)
  · exact Or.inl (h2 ▸ h1)
  · exact Or.inl (h1 ▸ h2)
  · exact Or.inr ⟨h1 ▸ h2, le_trans h2v h1v⟩

/-- `get_process_suggestions(process_data, potential, communication)`
(matching_engine.py:39-64): filter on (potential OR communication) AND
vacancy > 0, attach `relevance = 0 (+2 if potential matches) (+1 if
communication matches)`, sort by relevance then vacancy, both
descending. -/
def get_process_suggestions (process_data : List Process)
    (potential communication : String) : List (Process × Nat) :=
  let suggested := process_data.filter (fun p =>
    (p.potential == potential || p.communication == communication) &&
      decide (0 < p.vacancy))
  let scored := suggested.map (fun p =>
    (p, (if p.potential == potential then 2 else 0) +
        (if p.communication == communication then 1 else 0)))
  scored.insertionSort sugGe

/-! ## Sequences of ledger operations -/

/-- One call of the assignment core's mutating interface. -/
inductive Op where
  | adjust (process_name : String) (change : Int)
  | add (name email potential communication : String)
      (process_name : Option String)
  | update (employee_id : Nat) (name email potential communication : String)
      (process_name : Option String)
  | delete (employee_id : Nat)
  deriving DecidableEq, Repr

/-- The state after one call (results/messages discarded). -/
def applyOp (db : DB) : Op → DB
  | .adjust pn c => (update_process_vacancy db pn c).2
  | .add n em pot co pn => (add_employee db n em pot co pn).db
  | .update i n em pot co pn => (update_employee db i n em pot co pn).db
  | .delete i => (delete_employee db i).db

/-- The state after a sequence of calls. -/
def applyOps (db : DB) (ops : List Op) : DB :=
  ops.foldl applyOp db

/-- `true` for the three employee-ledger calls, `false` for the raw
vacancy adjustment. -/
def Op.isLedger : Op → Bool
  | .adjust _ _ => false
  | _ => true

/-! ## Basic lemmas about the SQL-statement models -/

theorem mapVacancy_row_name (pname : String) (f : Int → Int) (p : Process) :
    (if p.name == pname then { p with vacancy := f p.vacancy } else p).name
      = p.name := by
  split <;> rfl

theorem mapVacancy_names (ps : List Process) (pname : String) (f : Int → Int) :
    (mapVacancy ps pname f).map (·.name) = ps.map (·.name) := by
  unfold mapVacancy
  rw [List.map_map]
  exact List.map_congr_left (fun p _ => mapVacancy_row_name pname f p)

theorem find?_mapVacancy (ps : List Process) (pname : String) (f : Int → Int)
    (m : String) :
    (mapVacancy ps pname f).find? (fun p => p.name == m)
      = (ps.find? (fun p => p.name == m)).map
          (fun p => if p.name == pname then { p with vacancy := f p.vacancy } else p) := by
  unfold mapVacancy
  rw [List.find?_map]
  have hq : ((fun p => p.name == m) ∘
      (fun p => if p.name == pname then { p with vacancy := f p.vacancy } else p))
        = (fun p : Process => p.name == m) := by
    funext p
    simp only [Function.comp_apply, mapVacancy_row_name]
  rw [hq]

theorem mapVacancy_eq_self (ps : List Process) (pname : String) (f : Int → Int)
    (h : ∀ p ∈ ps, (p.name == pname) = false) :
    mapVacancy ps pname f = ps := by
  unfold mapVacancy
  have : ∀ p ∈ ps, (if p.name == pname then { p with vacancy := f p.vacancy } else p) = p := by
    intro p hp
    rw [h p hp]
    rfl
  rw [List.map_congr_left this]
  exact List.map_id ps

theorem filter_isEmpty_iff {α : Type} (q : α → Bool) (l : List α) :
    (l.filter q).isEmpty = true ↔ ∀ a ∈ l, q a = false := by
  rw [List.isEmpty_iff, List.filter_eq_nil_iff]
  constructor
  · intro h a ha
    simpa using h a ha
  · intro h a ha
    simp [h a ha]

/-! ## C8: `update_process_vacancy` semantics -/

/-- C8: `adjustVacancy` (`update_process_vacancy`) with `delta < 0` on an
existing process sets `vacancy` to `max (vacancy + delta) 0` (excess
decrement silently absorbed, never negative); with `delta ≥ 0` it adds
unclamped; it returns `False` exactly when no process with the given name
exists, and then leaves the state unchanged. -/
theorem update_process_vacancy_spec (db : DB) (process_name : String) (change : Int) :
    ((update_process_vacancy db process_name change).1 = true ↔
      ∃ p ∈ db.processes, p.name = process_name) ∧
    ((update_process_vacancy db process_name change).1 = false →
      (update_process_vacancy db process_name change).2 = db) ∧
    (update_process_vacancy db process_name change).2.employees = db.employees ∧
    ((update_process_vacancy db process_name change).1 = true →
      (update_process_vacancy db process_name change).2.processes =
        db.processes.map (fun p =>
          if p.name = process_name then
            { p with vacancy :=
                if change < 0 then max (p.vacancy + change) 0
                else p.vacancy + change }
          else p)) := by
  have hmap :
      (if change < 0 then
        mapVacancy db.processes process_name
          (fun v => if v + change < 0 then 0 else v + change)
      else
        mapVacancy db.processes process_name (fun v => v + change)) =
      db.processes.map (fun p =>
        if p.name = process_name then
          { p with vacancy :=
              if change < 0 then max (p.vacancy + change) 0
              else p.vacancy + change }
        else p) := by
    unfold mapVacancy
    split
    · rename_i hc
      apply List.map_congr_left
      intro p _
      by_cases hn : p.name = process_name
      · have hb : (p.name == process_name) = true := by simpa using hn
        rw [if_pos hb, if_pos hn]
        show ({ p with vacancy := if p.vacancy + change < 0 then 0 else p.vacancy + change }
          : Process) = _
        have hv : (if p.vacancy + change < 0 then (0 : Int) else p.vacancy + change)
            = max (p.vacancy + change) 0 := by omega
        rw [hv]
      · have hb : (p.name == process_name) = false := by simpa using hn
        rw [if_neg (by simp [hb]), if_neg hn]
    · rename_i hc
      apply List.map_congr_left
      intro p _
      by_cases hn : p.name = process_name
      · have hb : (p.name == process_name) = true := by simpa using hn
        rw [if_pos hb, if_pos hn]
      · have hb : (p.name == process_name) = false := by simpa using hn
        rw [if_neg (by simp [hb]), if_neg hn]
  unfold update_process_vacancy
  by_cases he : (db.processes.filter (fun p => p.name == process_name)).isEmpty = true
  · rw [if_pos he]
    rw [filter_isEmpty_iff] at he
    refine ⟨?_, fun _ => rfl, rfl, ?_⟩
    · constructor
      · intro h
        exact absurd h (by simp)
      · rintro ⟨p, hp, hname⟩
        have hfp := he p hp
        rw [hname] at hfp
        simp at hfp
    · intro h
      exact absurd h (by simp)
  · rw [if_neg he]
    refine ⟨?_, ?_, rfl, fun _ => hmap⟩
    · refine iff_of_true rfl ?_
      rw [filter_isEmpty_iff] at he
      push_neg at he
      obtain ⟨p, hp, hq⟩ := he
      exact ⟨p, hp, by simpa using hq⟩
    · intro h
      simp at h

/-- Witness for C8 at a concrete state: decrementing by 10 a process with
vacancy 2 succeeds and clamps the vacancy at 0. -/
theorem update_process_vacancy_spec_witness :
    (update_process_vacancy ⟨[⟨1, "P", "Sales", "Good", 2⟩], [], 1⟩ "P" (-10)).1 = true ∧
    (update_process_vacancy ⟨[⟨1, "P", "Sales", "Good", 2⟩], [], 1⟩ "P" (-10)).2.processes
      = [⟨1, "P", "Sales", "Good", 0⟩] := by
  have h := update_process_vacancy_spec ⟨[⟨1, "P", "Sales", "Good", 2⟩], [], 1⟩ "P" (-10)
  have ht := h.1.mpr ⟨⟨1, "P", "Sales", "Good", 2⟩, by decide, rfl⟩
  refine ⟨ht, ?_⟩
  rw [h.2.2.2 ht]
  decide

/-! ## C2: atomicity of rejected edits -/

/-- Every failing return of `update_employee` is preceded by `ROLLBACK`,
so the persisted state is the pre-call state. -/
theorem update_employee_fail_eq (db : DB) (employee_id : Nat)
    (name email potential communication : String) (process_name : Option String) :
    (update_employee db employee_id name email potential communication
        process_name).ok = false →
    (update_employee db employee_id name email potential communication
        process_name).db = db := by
  simp only [update_employee, finishUpdate]
  repeat' split
  all_goals intro h
  all_goals first
  | rfl
  | simp at h

/-- C2: if `updateEmployee` changes the assignment and validation of the
new process fails (absent from the catalog, or vacancy `≤ 0`), the call
returns an error and the persisted state is completely unchanged — the
interim `+1` release of the old process's vacancy is never observable. -/
theorem update_employee_rejected_edit_atomic (db : DB) (employee_id : Nat)
    (name email potential communication : String) (np : String)
    (emp : Employee)
    (hfind : db.employees.find? (fun e => e.id == employee_id) = some emp)
    (hne : emp.process_name ≠ some np)
    (hbad : (∀ p ∈ db.processes, p.name ≠ np) ∨
            (∃ p, db.processes.find? (fun p => p.name == np) = some p ∧
              p.vacancy ≤ 0)) :
    (update_employee db employee_id name email potential communication
        (some np)).ok = false ∧
    (update_employee db employee_id name email potential communication
        (some np)).db = db := by
  have hok : (update_employee db employee_id name email potential communication
      (some np)).ok = false := by
    simp only [update_employee]
    split
    · rfl
    · rw [hfind]
      simp only []
      rw [if_pos hne]
      -- the staged table after releasing the old process
      rcases hbad with hnone | ⟨p, hfp, hv⟩
      · have hfd : db.processes.find? (fun p => p.name == np) = none := by
          rw [List.find?_eq_none]
          intro p hp
          simp [hnone p hp]
        cases hold : emp.process_name with
        | none =>
            simp only [hold]
            rw [hfd]
        | some oldp =>
            simp only [hold]
            rw [find?_mapVacancy, hfd]
            rfl
      · have hpname : p.name = np := by
          have := List.find?_some hfp
          simpa using this
        cases hold : emp.process_name with
        | none =>
            simp only [hold]
            rw [hfp]
            simp only []
            rw [if_pos hv]
        | some oldp =>
            have hop : oldp ≠ np := by
              intro hcon
              rw [hold, hcon] at hne
              exact hne rfl
            simp only [hold]
            rw [find?_mapVacancy, hfp]
            simp only [Option.map_some']
            have hrow : (if p.name == oldp then
                ({ p with vacancy := p.vacancy + 1 } : Process) else p) = p := by
              rw [if_neg (by simp only [hpname, beq_iff_eq]; exact fun h => hop h.symm)]
            rw [hrow, if_pos hv]
  exact ⟨hok, update_employee_fail_eq db employee_id name email potential
    communication (some np) hok⟩

/-- Witness for C2: editing an assigned-to-nothing employee onto a
zero-vacancy process fails and leaves the concrete state unchanged. -/
theorem update_employee_rejected_edit_atomic_witness :
    (update_employee ⟨[⟨1, "P", "Sales", "Good", 0⟩],
        [⟨1, "n", "a@b.c", "Sales", "Good", none, none⟩], 2⟩
        1 "n" "a@b.c" "Sales" "Good" (some "P")).ok = false ∧
    (update_employee ⟨[⟨1, "P", "Sales", "Good", 0⟩],
        [⟨1, "n", "a@b.c", "Sales", "Good", none, none⟩], 2⟩
        1 "n" "a@b.c" "Sales" "Good" (some "P")).db =
      ⟨[⟨1, "P", "Sales", "Good", 0⟩],
        [⟨1, "n", "a@b.c", "Sales", "Good", none, none⟩], 2⟩ :=
  update_employee_rejected_edit_atomic _ 1 "n" "a@b.c" "Sales" "Good" "P"
    ⟨1, "n", "a@b.c", "Sales", "Good", none, none⟩
    (by decide) (by decide)
    (Or.inr ⟨⟨1, "P", "Sales", "Good", 0⟩, by decide, by decide⟩)

/-! ## C3 and C9: the matching engine -/

theorem head_insertionSort_max {α : Type} (r : α → α → Prop) [DecidableRel r]
    [IsTotal α r] [IsTrans α r] (l : List α) (hne : l ≠ []) :
    ∃ a, (l.insertionSort r).head? = some a ∧ a ∈ l ∧ ∀ b ∈ l, r a b := by
  have hperm := List.perm_insertionSort r l
  have hsorted := List.sorted_insertionSort r l
  cases hs : l.insertionSort r with
  | nil =>
    rw [hs] at hperm
    exact absurd hperm.symm.eq_nil hne
  | cons a t =>
    refine ⟨a, rfl, ?_, ?_⟩
    · have ha : a ∈ l.insertionSort r := by
        rw [hs]
        exact List.mem_cons_self a t
      exact hperm.mem_iff.mp ha
    · intro b hb
      have hbs : b ∈ a :: t := by
        rw [← hs]
        exact hperm.mem_iff.mpr hb
      rcases List.mem_cons.mp hbs with rfl | hbt
      · rcases IsTotal.total (r := r) b b with h | h <;> exact h
      · rw [hs] at hsorted
        exact (List.pairwise_cons.mp hsorted).1 b hbt

/-- C3: `findBestMatch` (`find_matching_process`) returns a maximal-vacancy
process among the exact (potential AND communication, vacancy > 0) matches
when that set is nonempty — so an exact match is preferred over any
potential-only match regardless of vacancy; otherwise a maximal-vacancy
process among the potential-only (vacancy > 0) matches; otherwise
nothing. -/
theorem find_matching_process_spec (pd : List Process)
    (potential communication : String) :
    (pd.filter (fun p => p.potential == potential &&
        p.communication == communication && decide (0 < p.vacancy)) ≠ [] →
      ∃ a, find_matching_process pd potential communication = some a ∧
        a ∈ pd.filter (fun p => p.potential == potential &&
          p.communication == communication && decide (0 < p.vacancy)) ∧
        ∀ b ∈ pd.filter (fun p => p.potential == potential &&
          p.communication == communication && decide (0 < p.vacancy)),
            b.vacancy ≤ a.vacancy) ∧
    (pd.filter (fun p => p.potential == potential &&
        p.communication == communication && decide (0 < p.vacancy)) = [] →
      pd.filter (fun p => p.potential == potential && decide (0 < p.vacancy)) ≠ [] →
      ∃ a, find_matching_process pd potential communication = some a ∧
        a ∈ pd.filter (fun p => p.potential == potential && decide (0 < p.vacancy)) ∧
        ∀ b ∈ pd.filter (fun p => p.potential == potential && decide (0 < p.vacancy)),
            b.vacancy ≤ a.vacancy) ∧
    (pd.filter (fun p => p.potential == potential &&
        p.communication == communication && decide (0 < p.vacancy)) = [] →
      pd.filter (fun p => p.potential == potential && decide (0 < p.vacancy)) = [] →
      find_matching_process pd potential communication = none) := by
  refine ⟨?_, ?_, ?_⟩
  · intro hne
    simp only [find_matching_process]
    rw [if_neg (by simpa [List.isEmpty_iff] using hne)]
    exact head_insertionSort_max vacGe _ hne
  · intro hemp hne
    simp only [find_matching_process]
    rw [if_pos (by simpa [List.isEmpty_iff] using hemp)]
    exact head_insertionSort_max vacGe _ hne
  · intro hemp hemp2
    simp only [find_matching_process]
    rw [if_pos (by simpa [List.isEmpty_iff] using hemp), hemp2]
    rfl

/-- Witness for C3 on the spec's P5 catalog: with an exact match `B`
(vacancy 1) and a higher-vacancy potential-only match `A` (vacancy 3), the
result lies in the exact-match set. -/
theorem find_matching_process_spec_witness :
    ∃ a, find_matching_process
        [⟨1, "A", "Sales", "Excellent", 3⟩, ⟨2, "B", "Sales", "Good", 1⟩]
        "Sales" "Good" = some a ∧
      a ∈ ([⟨1, "A", "Sales", "Excellent", 3⟩,
            ⟨2, "B", "Sales", "Good", 1⟩] : List Process).filter
          (fun p => p.potential == "Sales" &&
            p.communication == "Good" && decide (0 < p.vacancy)) ∧
      ∀ b ∈ ([⟨1, "A", "Sales", "Excellent", 3⟩,
            ⟨2, "B", "Sales", "Good", 1⟩] : List Process).filter
          (fun p => p.potential == "Sales" &&
            p.communication == "Good" && decide (0 < p.vacancy)),
        b.vacancy ≤ a.vacancy :=
  (find_matching_process_spec
    [⟨1, "A", "Sales", "Excellent", 3⟩, ⟨2, "B", "Sales", "Good", 1⟩]
    "Sales" "Good").1 (by decide)

/-- C9: `rankSuggestions` (`get_process_suggestions`) returns exactly the
vacancy-positive processes matching potential OR communication, scored
`relevance = 2·[potential matches] + 1·[communication matches]`, in an
order that is sorted by relevance descending, then vacancy descending. -/
theorem get_process_suggestions_spec (pd : List Process)
    (potential communication : String) :
    (get_process_suggestions pd potential communication).Perm
      ((pd.filter (fun p => (p.potential == potential ||
          p.communication == communication) && decide (0 < p.vacancy))).map
        (fun p => (p, (if p.potential == potential then 2 else 0) +
            (if p.communication == communication then 1 else 0)))) ∧
    List.Pairwise (fun a b : Process × Nat =>
        b.2 < a.2 ∨ (b.2 = a.2 ∧ b.1.vacancy ≤ a.1.vacancy))
      (get_process_suggestions pd potential communication) := by
  constructor
  · exact List.perm_insertionSort sugGe _
  · exact List.sorted_insertionSort sugGe _


/-! ## C1: vacancies never go negative -/

/-- Invariant I1: every process has non-negative vacancy. -/
@[reducible] def VacNonneg (db : DB) : Prop := ∀ p ∈ db.processes, 0 ≤ p.vacancy

theorem vacNonneg_mapVacancy {ps : List Process} {pname : String} {f : Int → Int}
    (hps : ∀ p ∈ ps, 0 ≤ p.vacancy) (hf : ∀ v : Int, 0 ≤ v → 0 ≤ f v) :
    ∀ p ∈ mapVacancy ps pname f, 0 ≤ p.vacancy := by
  intro p hp
  unfold mapVacancy at hp
  obtain ⟨q, hq, rfl⟩ := List.mem_map.mp hp
  split
  · exact hf _ (hps q hq)
  · exact hps q hq

theorem vacNonneg_update_process_vacancy (db : DB) (pn : String) (c : Int)
    (h : VacNonneg db) : VacNonneg (update_process_vacancy db pn c).2 := by
  simp only [update_process_vacancy]
  split
  · exact h
  · split
    · have hf : ∀ v : Int, 0 ≤ v → 0 ≤ (if v + c < 0 then (0 : Int) else v + c) := by
        intro v hv
        split <;> omega
      exact vacNonneg_mapVacancy h hf
    · have hf : ∀ v : Int, 0 ≤ v → 0 ≤ v + c := by
        intro v hv
        rename_i hc
        omega
      exact vacNonneg_mapVacancy h hf

theorem vacNonneg_add_employee (db : DB) (n em pot co : String)
    (pn : Option String) (h : VacNonneg db) :
    VacNonneg (add_employee db n em pot co pn).db := by
  simp only [add_employee]
  split
  · exact h
  · split
    · exact h
    · split
      · exact h
      · split
        · exact h
        · split
          · exact h
          · have hf : ∀ v : Int, 0 ≤ v → 0 ≤ (if 0 < v then v - 1 else (0 : Int)) := by
              intro v hv
              split <;> omega
            exact vacNonneg_mapVacancy h hf

theorem vacNonneg_finishUpdate (db : DB) (ps : List Process) (i : Nat)
    (n em pot co : String) (pid : Option Nat) (pn : Option String)
    (hps : ∀ p ∈ ps, 0 ≤ p.vacancy) (h : VacNonneg db) :
    VacNonneg (finishUpdate db ps i n em pot co pid pn).db := by
  simp only [finishUpdate]
  split
  · exact h
  · exact hps

theorem vacNonneg_update_employee (db : DB) (i : Nat) (n em pot co : String)
    (pn : Option String) (h : VacNonneg db) :
    VacNonneg (update_employee db i n em pot co pn).db := by
  simp only [update_employee]
  split
  · exact h
  · split
    · exact h
    · rename_i emp _
      split
      · -- assignment changed
        have hps1 : ∀ p ∈ (match emp.process_name with
            | some oldp => mapVacancy db.processes oldp (fun v => v + 1)
            | none => db.processes), 0 ≤ p.vacancy := by
          split
          · refine vacNonneg_mapVacancy h ?_
            intro v hv
            omega
          · exact h
        split
        · split
          · exact h
          · split
            · exact h
            · split
              · exact h
              · refine vacNonneg_finishUpdate db _ i n (normEmail em) pot co _ _
                  ?_ h
                refine vacNonneg_mapVacancy hps1 ?_
                intro v hv
                split <;> omega
        · exact vacNonneg_finishUpdate db _ i n (normEmail em) pot co _ _ hps1 h
      · exact vacNonneg_finishUpdate db _ i n (normEmail em) pot co _ _ h h

theorem vacNonneg_delete_employee (db : DB) (i : Nat) (h : VacNonneg db) :
    VacNonneg (delete_employee db i).db := by
  simp only [delete_employee]
  split
  · exact h
  · split
    · exact h
    · split
      · have hf : ∀ v : Int, 0 ≤ v → 0 ≤ v + 1 := by
          intro v hv
          omega
        exact vacNonneg_mapVacancy h hf
      · exact h

theorem vacNonneg_applyOp (db : DB) (op : Op) (h : VacNonneg db) :
    VacNonneg (applyOp db op) := by
  cases op with
  | adjust pn c => exact vacNonneg_update_process_vacancy db pn c h
  | add n em pot co pn => exact vacNonneg_add_employee db n em pot co pn h
  | update i n em pot co pn => exact vacNonneg_update_employee db i n em pot co pn h
  | delete i => exact vacNonneg_delete_employee db i h

/-- C1: starting from a state whose vacancies are all non-negative, after
every operation in any sequence of `update_process_vacancy`,
`add_employee`, `update_employee` and `delete_employee` calls, every
process's vacancy is still `≥ 0` (every intermediate state is the final
state of a prefix of the sequence). -/
theorem vacancy_nonneg_invariant (db : DB) (ops : List Op)
    (h : VacNonneg db) : VacNonneg (applyOps db ops) := by
  induction ops generalizing db with
  | nil => exact h
  | cons op rest ih => exact ih _ (vacNonneg_applyOp db op h)

/-- Witness for C1: a concrete sequence that assigns, over-decrements and
deletes, ending (like every intermediate state) with non-negative
vacancies. -/
theorem vacancy_nonneg_invariant_witness :
    VacNonneg (applyOps ⟨[⟨1, "P", "Sales", "Good", 1⟩], [], 1⟩
      [.add "a" "a@b.c" "Sales" "Good" (some "P"), .adjust "P" (-5),
       .delete 1, .adjust "P" 2]) :=
  vacancy_nonneg_invariant _ _ (by decide)

/-! ## C4: `update_employee` on an absent employee id

In the source the duplicate-email check (`database.py:363`) runs *before*
the employee lookup (`database.py:370`), so an absent id together with a
colliding email yields `DuplicateEmail`, not `NotFound`. -/

/-- Counterexample to C4 as stated: employee id 2 is absent, yet because
the supplied email collides with employee 1's email the call fails with
the duplicate-email message instead of "Employee not found". -/
theorem update_employee_absent_id_counterexample :
    (∀ e ∈ (⟨[], [⟨1, "n", "a@x.com", "Sales", "Good", none, none⟩], 2⟩ : DB).employees,
      e.id ≠ 2) ∧
    (update_employee ⟨[], [⟨1, "n", "a@x.com", "Sales", "Good", none, none⟩], 2⟩
        2 "m" "a@x.com" "Sales" "Good" none).msg =
      "Email already exists for another employee" ∧
    (update_employee ⟨[], [⟨1, "n", "a@x.com", "Sales", "Good", none, none⟩], 2⟩
        2 "m" "a@x.com" "Sales" "Good" none).msg ≠ "Employee not found" := by
  refine ⟨by decide, ?_, ?_⟩ <;> decide

/-- C4 (amended): a call with an absent employee id always fails and
leaves the state unchanged, but the error depends on the email argument:
`DuplicateEmail` when the normalized email collides (case-insensitively)
with an existing employee's email, `NotFound` otherwise. -/
theorem update_employee_absent_id (db : DB) (i : Nat)
    (n em pot co : String) (pn : Option String)
    (habs : ∀ e ∈ db.employees, e.id ≠ i) :
    (update_employee db i n em pot co pn).ok = false ∧
    (update_employee db i n em pot co pn).db = db ∧
    ((∃ e ∈ db.employees, pyLower e.email = pyLower (normEmail em)) →
      (update_employee db i n em pot co pn).msg =
        "Email already exists for another employee") ∧
    ((∀ e ∈ db.employees, pyLower e.email ≠ pyLower (normEmail em)) →
      (update_employee db i n em pot co pn).msg = "Employee not found") := by
  by_cases hex : ∃ e ∈ db.employees, pyLower e.email = pyLower (normEmail em)
  · obtain ⟨e, he, heq⟩ := hex
    have hany : (db.employees.any (fun e =>
        pyLower e.email == pyLower (normEmail em) && e.id != i)) = true := by
      refine List.any_eq_true.mpr ⟨e, he, ?_⟩
      have h1 : (pyLower e.email == pyLower (normEmail em)) = true := by
        simp [heq]
      have h2 : (e.id != i) = true := by
        simpa using habs e he
      rw [h1, h2]
      rfl
    simp only [update_employee]
    rw [if_pos hany]
    refine ⟨rfl, rfl, fun _ => rfl, ?_⟩
    intro hall
    exact absurd heq (hall e he)
  · have hany : (db.employees.any (fun e =>
        pyLower e.email == pyLower (normEmail em) && e.id != i)) = false := by
      rw [List.any_eq_false]
      intro e he
      intro hcon
      rw [Bool.and_eq_true] at hcon
      exact hex ⟨e, he, by simpa using hcon.1⟩
    have hfind : db.employees.find? (fun e => e.id == i) = none := by
      rw [List.find?_eq_none]
      intro e he
      simpa using habs e he
    simp only [update_employee]
    rw [if_neg (by rw [hany]; simp), hfind]
    exact ⟨rfl, rfl, fun hex2 => absurd hex2 hex, fun _ => rfl⟩

/-- Witness for the amended C4: with employee 1 present and id 2 absent, a
colliding email gives the duplicate-email failure with unchanged state. -/
theorem update_employee_absent_id_witness :
    (update_employee ⟨[], [⟨1, "n", "a@x.com", "Sales", "Good", none, none⟩], 2⟩
        2 "m" " A@X.com" "Sales" "Good" none).ok = false ∧
    (update_employee ⟨[], [⟨1, "n", "a@x.com", "Sales", "Good", none, none⟩], 2⟩
        2 "m" " A@X.com" "Sales" "Good" none).db =
      ⟨[], [⟨1, "n", "a@x.com", "Sales", "Good", none, none⟩], 2⟩ :=
  ⟨(update_employee_absent_id _ 2 "m" " A@X.com" "Sales" "Good" none
      (by decide)).1,
   (update_employee_absent_id _ 2 "m" " A@X.com" "Sales" "Good" none
      (by decide)).2.1⟩

/-! ## C10: unchanged assignment to a vanished process -/

/-- C10: if the requested process equals the employee's current
`assigned_process` but that process is no longer in the catalog, the edit
still succeeds (no `ProcessNotFound`), the employee keeps the process
name (with `process_id` refreshed to `NULL`), and no process's vacancy
changes.  The email hypothesis only rules out an unrelated
duplicate-email rejection. -/
theorem update_employee_same_missing_process (db : DB) (i : Nat)
    (n em pot co : String) (np : String) (emp : Employee)
    (hfind : db.employees.find? (fun e => e.id == i) = some emp)
    (hsame : emp.process_name = some np)
    (hmissing : ∀ p ∈ db.processes, p.name ≠ np)
    (hnodup : ∀ e ∈ db.employees,
      pyLower e.email = pyLower (normEmail em) → e.id = i) :
    (update_employee db i n em pot co (some np)).ok = true ∧
    (update_employee db i n em pot co (some np)).msg =
      "Employee updated successfully" ∧
    (update_employee db i n em pot co (some np)).db.processes = db.processes ∧
    (update_employee db i n em pot co (some np)).db.employees =
      db.employees.map (fun e =>
        if e.id == i then
          { e with
              name := n, email := normEmail em, potential := pot,
              communication := co, process_id := none,
              process_name := some np }
        else e) ∧
    ∀ e ∈ (update_employee db i n em pot co (some np)).db.employees,
      e.id = i → e.process_name = some np := by
  have hany : (db.employees.any (fun e =>
      pyLower e.email == pyLower (normEmail em) && e.id != i)) = false := by
    rw [List.any_eq_false]
    intro e he hcon
    rw [Bool.and_eq_true] at hcon
    have := hnodup e he (by simpa using hcon.1)
    revert hcon
    simp [this]
  have hpf : db.processes.find? (fun p => p.name == np) = none := by
    rw [List.find?_eq_none]
    intro p hp
    simpa using hmissing p hp
  have hmem := List.mem_of_find?_eq_some hfind
  have hpred : (emp.id == i) = true := by
    have h0 := List.find?_some hfind
    simpa using h0
  have hflt : (db.employees.filter (fun e => e.id == i)).isEmpty = false := by
    by_cases hie : (db.employees.filter (fun e => e.id == i)).isEmpty = true
    · rw [filter_isEmpty_iff] at hie
      rw [hie emp hmem] at hpred
      exact absurd hpred (by simp)
    · simpa using hie
  have hall : ∀ e ∈ db.employees.map (fun e =>
      if e.id == i then
        { e with
            name := n, email := normEmail em, potential := pot,
            communication := co, process_id := none,
            process_name := some np }
      else e), e.id = i → e.process_name = some np := by
    intro e he hid
    obtain ⟨e0, he0, rfl⟩ := List.mem_map.mp he
    by_cases h0 : (e0.id == i) = true
    · rw [if_pos h0]
    · rw [if_neg h0]
      rw [if_neg h0] at hid
      exact absurd (by simpa using hid) (by simpa using h0)
  simp only [update_employee]
  rw [if_neg (by rw [hany]; simp), hfind]
  simp only []
  rw [if_neg (not_not_intro hsame), hpf]
  simp only [Option.map_none', finishUpdate]
  rw [if_neg (by rw [hflt]; simp)]
  exact ⟨rfl, rfl, rfl, rfl, hall⟩

/-- Witness for C10: the catalog is empty (replaced), yet re-submitting
the employee's current process "P" succeeds and keeps the assignment. -/
theorem update_employee_same_missing_process_witness :
    (update_employee ⟨[], [⟨1, "n", "a@x.com", "Sales", "Good", some 5, some "P"⟩], 2⟩
        1 "n" "a@x.com" "Sales" "Good" (some "P")).ok = true ∧
    (update_employee ⟨[], [⟨1, "n", "a@x.com", "Sales", "Good", some 5, some "P"⟩], 2⟩
        1 "n" "a@x.com" "Sales" "Good" (some "P")).db.processes = [] ∧
    ∀ e ∈ (update_employee ⟨[], [⟨1, "n", "a@x.com", "Sales", "Good", some 5, some "P"⟩], 2⟩
        1 "n" "a@x.com" "Sales" "Good" (some "P")).db.employees,
      e.id = 1 → e.process_name = some "P" := by
  have h := update_employee_same_missing_process
    ⟨[], [⟨1, "n", "a@x.com", "Sales", "Good", some 5, some "P"⟩], 2⟩
    1 "n" "a@x.com" "Sales" "Good" "P"
    ⟨1, "n", "a@x.com", "Sales", "Good", some 5, some "P"⟩
    (by decide) (by decide) (by decide) (by decide)
  exact ⟨h.1, h.2.2.1, h.2.2.2.2⟩

/-! ## C7: `delete_employee` semantics -/

theorem filter_isEmpty_false_of_find? {α : Type} {q : α → Bool} {l : List α}
    {a : α} (hfind : l.find? q = some a) :
    (l.filter q).isEmpty = false := by
  have hmem := List.mem_of_find?_eq_some hfind
  have hpred := List.find?_some hfind
  by_cases hie : (l.filter q).isEmpty = true
  · rw [filter_isEmpty_iff] at hie
    rw [hie a hmem] at hpred
    exact absurd hpred (by simp)
  · simpa using hie

/-- C7: deleting an existing employee always succeeds and removes it; if
the employee held a process still in the catalog, that process's vacancy
increases by exactly 1 — so an `add_employee` onto that process succeeds
afterwards even if the vacancy had been 0 — and if the held process is
gone the delete still succeeds with the catalog untouched. -/
theorem delete_employee_spec (db : DB) (i : Nat) (emp : Employee)
    (hfind : db.employees.find? (fun e => e.id == i) = some emp) :
    (delete_employee db i).ok = true ∧
    (delete_employee db i).db.employees =
      db.employees.filter (fun e => !(e.id == i)) ∧
    (emp.process_name = none →
      (delete_employee db i).db.processes = db.processes) ∧
    (∀ pn, emp.process_name = some pn →
      (∀ p ∈ db.processes, p.name ≠ pn) →
      (delete_employee db i).db.processes = db.processes) ∧
    (∀ pn p, emp.process_name = some pn →
      db.processes.find? (fun q => q.name == pn) = some p →
      (delete_employee db i).db.processes.find? (fun q => q.name == pn) =
        some { p with vacancy := p.vacancy + 1 }) ∧
    (∀ pn p, emp.process_name = some pn →
      db.processes.find? (fun q => q.name == pn) = some p →
      0 ≤ p.vacancy →
      ∀ nm em2 pot co,
        (∀ e ∈ db.employees.filter (fun e => !(e.id == i)),
          pyLower e.email ≠ pyLower (normEmail em2)) →
        (add_employee (delete_employee db i).db nm em2 pot co (some pn)).ok
          = true) := by
  have hflt : (db.employees.filter (fun e => e.id == i)).isEmpty = false :=
    filter_isEmpty_false_of_find? hfind
  refine ⟨?_, ?_, ?_, ?_, ?_, ?_⟩
  · simp only [delete_employee]
    rw [hfind]
    simp only []
    rw [if_neg (by rw [hflt]; simp)]
  · simp only [delete_employee]
    rw [hfind]
    simp only []
    rw [if_neg (by rw [hflt]; simp)]
  · intro h0
    simp only [delete_employee]
    rw [hfind]
    simp only []
    rw [if_neg (by rw [hflt]; simp), h0]
  · intro pn h0 hmiss
    simp only [delete_employee]
    rw [hfind]
    simp only []
    rw [if_neg (by rw [hflt]; simp), h0]
    show mapVacancy db.processes pn (fun v => v + 1) = db.processes
    exact mapVacancy_eq_self db.processes pn (fun v => v + 1)
      (fun p hp => by simpa using hmiss p hp)
  · intro pn p h0 hfp
    simp only [delete_employee]
    rw [hfind]
    simp only []
    rw [if_neg (by rw [hflt]; simp), h0]
    rw [find?_mapVacancy, hfp]
    have hpn : (p.name == pn) = true := by
      have h1 := List.find?_some hfp
      simpa using h1
    simp only [Option.map_some']
    rw [if_pos hpn]
  · intro pn p h0 hfp hv nm em2 pot co hmail
    have hdel : (delete_employee db i).db =
        { processes := mapVacancy db.processes pn (fun v => v + 1),
          employees := db.employees.filter (fun e => !(e.id == i)),
          nextEmpId := db.nextEmpId } := by
      simp only [delete_employee]
      rw [hfind]
      simp only []
      rw [if_neg (by rw [hflt]; simp), h0]
    rw [hdel]
    have hpn : (p.name == pn) = true := by
      have h1 := List.find?_some hfp
      simpa using h1
    have hany : ((db.employees.filter (fun e => !(e.id == i))).any
        (fun e => pyLower e.email == pyLower (normEmail em2))) = false := by
      rw [List.any_eq_false]
      intro e he hcon
      exact hmail e he (by simpa using hcon)
    simp only [add_employee]
    rw [if_neg (by rw [hany]; simp)]
    rw [find?_mapVacancy, hfp]
    simp only [Option.map_some']
    rw [if_pos hpn]
    rw [if_neg (show ¬ (({ p with vacancy := p.vacancy + 1 } : Process).vacancy ≤ 0) by
      show ¬ (p.vacancy + 1 ≤ 0)
      omega)]
    have hfemp : ((mapVacancy db.processes pn (fun v => v + 1)).filter
        (fun q => q.name == pn)).isEmpty = false := by
      refine filter_isEmpty_false_of_find? (a :=
        if p.name == pn then { p with vacancy := p.vacancy + 1 } else p) ?_
      rw [find?_mapVacancy, hfp]
      rfl
    rw [if_neg (by rw [hfemp]; simp)]

/-- Witness for C7, the spec's P6 scenario: employee 1 holds the last
slot of process "P" (vacancy 0); deleting them succeeds and a subsequent
`add_employee` onto "P" succeeds. -/
theorem delete_employee_spec_witness :
    (delete_employee ⟨[⟨1, "P", "Sales", "Good", 0⟩],
        [⟨1, "E", "e@x.com", "Sales", "Good", some 1, some "P"⟩], 2⟩ 1).ok = true ∧
    (add_employee (delete_employee ⟨[⟨1, "P", "Sales", "Good", 0⟩],
        [⟨1, "E", "e@x.com", "Sales", "Good", some 1, some "P"⟩], 2⟩ 1).db
      "F" "f@x.com" "Sales" "Good" (some "P")).ok = true := by
  have h := delete_employee_spec
    ⟨[⟨1, "P", "Sales", "Good", 0⟩],
      [⟨1, "E", "e@x.com", "Sales", "Good", some 1, some "P"⟩], 2⟩ 1
    ⟨1, "E", "e@x.com", "Sales", "Good", some 1, some "P"⟩ (by decide)
  exact ⟨h.1, h.2.2.2.2.2 "P" ⟨1, "P", "Sales", "Good", 0⟩ (by decide) (by decide)
    (by decide) "F" "f@x.com" "Sales" "Good" (by decide)⟩

/-! ## C5: email uniqueness

Well-formedness of a database state.  `idsNodup` and `idsLt` hold of any
state SQLite can produce (`id` is an `AUTOINCREMENT` primary key);
`emailsStored` and `emailsLowNe` say that stored emails are normalized
and pairwise distinct even after lowercasing — which is exactly what the
`LOWER(email) = LOWER(?)` duplicate checks maintain. -/
structure WF (db : DB) : Prop where
  idsNodup : (db.employees.map (·.id)).Nodup
  idsLt : ∀ e ∈ db.employees, e.id < db.nextEmpId
  emailsStored : ∀ e ∈ db.employees, normEmail e.email = e.email
  emailsLowNe : db.employees.Pairwise
    (fun a b => pyLower a.email ≠ pyLower b.email)

/-- `WF` only looks at the employees table and the id counter. -/
theorem WF_of_eq {db db' : DB} (h : WF db) (he : db'.employees = db.employees)
    (hn : db'.nextEmpId = db.nextEmpId) : WF db' := by
  constructor
  · rw [he]
    exact h.idsNodup
  · intro e hme
    rw [he] at hme
    rw [hn]
    exact h.idsLt e hme
  · intro e hme
    rw [he] at hme
    exact h.emailsStored e hme
  · rw [he]
    exact h.emailsLowNe

/-- Appending a fresh employee with a normalized, non-colliding email
preserves well-formedness. -/
theorem WF_append (db : DB) (ps' : List Process) (n m pot co : String)
    (pid : Option Nat) (pn : Option String) (h : WF db)
    (hnorm : normEmail m = m)
    (hchk : ∀ e ∈ db.employees, pyLower e.email ≠ pyLower m) :
    WF { processes := ps',
         employees := db.employees ++ [⟨db.nextEmpId, n, m, pot, co, pid, pn⟩],
         nextEmpId := db.nextEmpId + 1 } := by
  constructor
  · show ((db.employees ++ [(⟨db.nextEmpId, n, m, pot, co, pid, pn⟩ : Employee)]).map (·.id)).Nodup
    rw [List.map_append]
    rw [List.nodup_append]
    refine ⟨h.idsNodup, by simp, ?_⟩
    intro x hx
    simp only [List.map_cons, List.map_nil, List.mem_singleton]
    obtain ⟨e, he, rfl⟩ := List.mem_map.mp hx
    exact fun hcon => absurd (hcon ▸ h.idsLt e he) (by simp)
  · intro e hme
    rcases List.mem_append.mp hme with hold | hnew
    · exact Nat.lt_trans (h.idsLt e hold) (Nat.lt_succ_self _)
    · rw [List.mem_singleton.mp hnew]
      exact Nat.lt_succ_self _
  · intro e hme
    rcases List.mem_append.mp hme with hold | hnew
    · exact h.emailsStored e hold
    · rw [List.mem_singleton.mp hnew]
      exact hnorm
  · show (db.employees ++ [(⟨db.nextEmpId, n, m, pot, co, pid, pn⟩ : Employee)]).Pairwise
        (fun a b => pyLower a.email ≠ pyLower b.email)
    rw [List.pairwise_append]
    refine ⟨h.emailsLowNe, by simp, ?_⟩
    intro a ha b hb
    rw [List.mem_singleton.mp hb]
    exact hchk a ha

/-- The `UPDATE employees ... WHERE id = ?` rewrite preserves
well-formedness when the new email is normalized and collides with no
*other* employee (exactly what the `LOWER(email) = LOWER(?) AND id != ?`
check ensures). -/
theorem WF_map_update (db : DB) (ps' : List Process) (i : Nat)
    (n m pot co : String) (pid : Option Nat) (pn : Option String) (h : WF db)
    (hnorm : normEmail m = m)
    (hchk : ∀ e ∈ db.employees, pyLower e.email = pyLower m → e.id = i) :
    WF { processes := ps',
         employees := db.employees.map (fun e =>
           if e.id == i then
             { e with
                 name := n, email := m, potential := pot,
                 communication := co, process_id := pid, process_name := pn }
           else e),
         nextEmpId := db.nextEmpId } := by
  have hid : ∀ e : Employee,
      ((if e.id == i then
        { e with
            name := n, email := m, potential := pot, communication := co,
            process_id := pid, process_name := pn }
       else e) : Employee).id = e.id := by
    intro e
    split <;> rfl
  have hidsne : db.employees.Pairwise (fun a b => a.id ≠ b.id) := by
    have hn := h.idsNodup
    rw [List.Nodup, List.pairwise_map] at hn
    exact hn
  constructor
  · show ((db.employees.map (fun e =>
        if e.id == i then
          { e with
              name := n, email := m, potential := pot, communication := co,
              process_id := pid, process_name := pn }
        else e)).map (·.id)).Nodup
    rw [List.map_map]
    have : ((·.id) ∘ (fun e : Employee =>
        if e.id == i then
          { e with
              name := n, email := m, potential := pot, communication := co,
              process_id := pid, process_name := pn }
        else e)) = (fun e : Employee => e.id) := by
      funext e
      simp only [Function.comp_apply, hid]
    rw [this]
    exact h.idsNodup
  · intro e hme
    obtain ⟨e0, he0, rfl⟩ := List.mem_map.mp hme
    rw [hid e0]
    exact h.idsLt e0 he0
  · intro e hme
    obtain ⟨e0, he0, rfl⟩ := List.mem_map.mp hme
    split
    · exact hnorm
    · exact h.emailsStored e0 he0
  · show (db.employees.map (fun e =>
        if e.id == i then
          { e with
              name := n, email := m, potential := pot, communication := co,
              process_id := pid, process_name := pn }
        else e)).Pairwise (fun a b => pyLower a.email ≠ pyLower b.email)
    rw [List.pairwise_map]
    have hcomb := (h.emailsLowNe).and hidsne
    refine hcomb.imp_of_mem ?_
    intro a b ha hb hab
    obtain ⟨hmail, hne⟩ := hab
    by_cases hai : (a.id == i) = true
    · rw [if_pos hai]
      have hbi : (b.id == i) = false := by
        rcases hbb : b.id == i with _ | _
        · rfl
        · refine absurd ?_ hne
          have h1 : a.id = i := by simpa using hai
          have h2 : b.id = i := by simpa using hbb
          rw [h1, h2]
      rw [if_neg (by simp [hbi])]
      show pyLower m ≠ pyLower b.email
      intro hcon
      have hbid := hchk b hb hcon.symm
      exact absurd hbid (by simpa using hbi)
    · rw [if_neg hai]
      by_cases hbi2 : (b.id == i) = true
      · rw [if_pos hbi2]
        show pyLower a.email ≠ pyLower m
        intro hcon
        have haid := hchk a ha hcon
        exact absurd haid (by simpa using hai)
      · rw [if_neg hbi2]
        exact hmail

/-- The `DELETE ... WHERE id = ?` statement preserves well-formedness. -/
theorem WF_filter (db : DB) (ps' : List Process) (i : Nat) (h : WF db) :
    WF { processes := ps',
         employees := db.employees.filter (fun e => !(e.id == i)),
         nextEmpId := db.nextEmpId } := by
  have hsub : List.Sublist (db.employees.filter (fun e => !(e.id == i)))
      db.employees :=
    List.filter_sublist _
  constructor
  · exact (hsub.map (·.id)).nodup h.idsNodup
  · intro e hme
    exact h.idsLt e (hsub.subset hme)
  · intro e hme
    exact h.emailsStored e (hsub.subset hme)
  · exact h.emailsLowNe.sublist hsub

theorem WF_finishUpdate (db : DB) (ps : List Process) (i : Nat)
    (n m pot co : String) (pid : Option Nat) (pn : Option String) (h : WF db)
    (hnorm : normEmail m = m)
    (hchk : ∀ e ∈ db.employees, pyLower e.email = pyLower m → e.id = i) :
    WF (finishUpdate db ps i n m pot co pid pn).db := by
  simp only [finishUpdate]
  split
  · exact h
  · exact WF_map_update db ps i n m pot co pid pn h hnorm hchk

theorem WF_update_process_vacancy (db : DB) (pn : String) (c : Int)
    (h : WF db) : WF (update_process_vacancy db pn c).2 := by
  simp only [update_process_vacancy]
  split
  · exact h
  · exact WF_of_eq h rfl rfl

theorem WF_add_employee (db : DB) (n em pot co : String) (pn : Option String)
    (h : WF db) : WF (add_employee db n em pot co pn).db := by
  simp only [add_employee]
  split
  · exact h
  · rename_i hany
    have hchk : ∀ e ∈ db.employees, pyLower e.email ≠ pyLower (normEmail em) := by
      intro e he hcon
      exact hany (List.any_eq_true.mpr ⟨e, he, by simp [hcon]⟩)
    split
    · exact WF_append db db.processes n (normEmail em) pot co none none h
        (normEmail_normEmail em) hchk
    · split
      · exact h
      · split
        · exact h
        · split
          · exact h
          · exact WF_append db _ n (normEmail em) pot co _ _ h
              (normEmail_normEmail em) hchk

theorem WF_update_employee (db : DB) (i : Nat) (n em pot co : String)
    (pn : Option String) (h : WF db) :
    WF (update_employee db i n em pot co pn).db := by
  simp only [update_employee]
  split
  · exact h
  · rename_i hany
    have hchk : ∀ e ∈ db.employees,
        pyLower e.email = pyLower (normEmail em) → e.id = i := by
      intro e he hcon
      by_contra hne
      exact hany (List.any_eq_true.mpr ⟨e, he, by simp [hcon, hne]⟩)
    split
    · exact h
    · split
      · split
        · split
          · exact h
          · split
            · exact h
            · split
              · exact h
              · exact WF_finishUpdate db _ i n (normEmail em) pot co _ _ h
                  (normEmail_normEmail em) hchk
        · exact WF_finishUpdate db _ i n (normEmail em) pot co _ _ h
            (normEmail_normEmail em) hchk
      · exact WF_finishUpdate db _ i n (normEmail em) pot co _ _ h
          (normEmail_normEmail em) hchk

theorem WF_delete_employee (db : DB) (i : Nat) (h : WF db) :
    WF (delete_employee db i).db := by
  simp only [delete_employee]
  split
  · exact h
  · split
    · exact h
    · exact WF_filter db _ i h

theorem WF_applyOp (db : DB) (op : Op) (h : WF db) : WF (applyOp db op) := by
  cases op with
  | adjust pn c => exact WF_update_process_vacancy db pn c h
  | add n em pot co pn => exact WF_add_employee db n em pot co pn h
  | update i n em pot co pn => exact WF_update_employee db i n em pot co pn h
  | delete i => exact WF_delete_employee db i h

theorem WF_applyOps (db : DB) (ops : List Op) (h : WF db) :
    WF (applyOps db ops) := by
  induction ops generalizing db with
  | nil => exact h
  | cons op rest ih => exact ih _ (WF_applyOp db op h)

theorem pairwise_norm_of_WF (l : List Employee)
    (hst : ∀ e ∈ l, normEmail e.email = e.email)
    (hpw : l.Pairwise (fun a b => pyLower a.email ≠ pyLower b.email)) :
    l.Pairwise (fun a b => normEmail a.email ≠ normEmail b.email) := by
  refine hpw.imp_of_mem ?_
  intro a b ha hb hlow
  rw [hst a ha, hst b hb]
  intro hcon
  rw [hcon] at hlow
  exact hlow rfl

/-- C5: starting from a well-formed state, after any sequence of calls no
two employees have equal normalized (trimmed, lowercased) emails, and an
`add_employee` or `update_employee` whose normalized email equals the
normalized email of a (different, for edits) existing employee fails with
the duplicate-email error and leaves the state unchanged. -/
theorem email_uniqueness_invariant (db : DB) (ops : List Op) (h : WF db) :
    (applyOps db ops).employees.Pairwise
      (fun a b => normEmail a.email ≠ normEmail b.email) ∧
    (∀ n em pot co pn,
      (∃ e ∈ (applyOps db ops).employees,
        normEmail e.email = normEmail em) →
      add_employee (applyOps db ops) n em pot co pn =
        ⟨false, "Email already exists in the database", applyOps db ops⟩) ∧
    (∀ i n em pot co pn,
      (∃ e ∈ (applyOps db ops).employees, e.id ≠ i ∧
        normEmail e.email = normEmail em) →
      update_employee (applyOps db ops) i n em pot co pn =
        ⟨false, "Email already exists for another employee",
          applyOps db ops⟩) := by
  have hwf := WF_applyOps db ops h
  refine ⟨pairwise_norm_of_WF _ hwf.emailsStored hwf.emailsLowNe, ?_, ?_⟩
  · intro n em pot co pn hex
    obtain ⟨e, he, heq⟩ := hex
    have h1 : e.email = normEmail em := by
      rw [← hwf.emailsStored e he]
      exact heq
    have hany : ((applyOps db ops).employees.any
        (fun e => pyLower e.email == pyLower (normEmail em))) = true := by
      refine List.any_eq_true.mpr ⟨e, he, ?_⟩
      rw [h1]
      simp
    simp only [add_employee]
    rw [if_pos hany]
  · intro i n em pot co pn hex
    obtain ⟨e, he, hne, heq⟩ := hex
    have h1 : e.email = normEmail em := by
      rw [← hwf.emailsStored e he]
      exact heq
    have hany : ((applyOps db ops).employees.any
        (fun e => pyLower e.email == pyLower (normEmail em) &&
          e.id != i)) = true := by
      refine List.any_eq_true.mpr ⟨e, he, ?_⟩
      rw [h1]
      simp [hne]
    simp only [update_employee]
    rw [if_pos hany]

/-- Witness for C5: after adding `foo@x.com` to an empty database, adding
`"Foo@X.com"` (same email up to trimming and case) fails with the
duplicate-email error and changes nothing. -/
theorem email_uniqueness_invariant_witness :
    add_employee (applyOps ⟨[], [], 1⟩
        [.add "u1" "foo@x.com" "Sales" "Good" none])
        "u2" "Foo@X.com" "Sales" "Good" none =
      ⟨false, "Email already exists in the database",
        applyOps ⟨[], [], 1⟩ [.add "u1" "foo@x.com" "Sales" "Good" none]⟩ :=
  (email_uniqueness_invariant ⟨[], [], 1⟩
      [.add "u1" "foo@x.com" "Sales" "Good" none]
      ⟨by decide, by decide, by decide, by decide⟩).2.1
    "u2" "Foo@X.com" "Sales" "Good" none (by decide)

/-! ## C6: conservation of vacancy slots

`holders db n` counts the employees currently assigned to the process
named `n`; the conserved quantity is `holders + vacancy`. -/

/-- Number of employees currently assigned to the process named `n`. -/
def holders (db : DB) (n : String) : Nat :=
  db.employees.countP (fun e => e.process_name == some n)

theorem exists_decomp_of_find? {l : List Employee} {i : Nat} {emp : Employee}
    (hfind : l.find? (fun e => e.id == i) = some emp)
    (hnodup : (l.map (·.id)).Nodup) :
    ∃ l₁ l₂, l = l₁ ++ emp :: l₂ ∧ (∀ x ∈ l₁, x.id ≠ i) ∧
      (∀ x ∈ l₂, x.id ≠ i) ∧ emp.id = i := by
  obtain ⟨hpred, l₁, l₂, heq, hpre⟩ := List.find?_eq_some.mp hfind
  have hid : emp.id = i := by simpa using hpred
  refine ⟨l₁, l₂, heq, ?_, ?_, hid⟩
  · intro x hx
    have hx2 := hpre x hx
    simpa using hx2
  · intro x hx
    subst heq
    have h2 := hnodup
    rw [List.map_append, List.map_cons, List.nodup_append] at h2
    have h3 := (List.nodup_cons.mp h2.2.1).1
    intro hcon
    exact h3 (List.mem_map.mpr ⟨x, hx, by rw [hcon, hid]⟩)

theorem countP_append_singleton (l : List Employee) (e : Employee)
    (q : Employee → Bool) :
    (l ++ [e]).countP q = l.countP q + (if q e then 1 else 0) := by
  rw [List.countP_append, List.countP_cons, List.countP_nil]
  omega

theorem countP_map_single (l : List Employee) (i : Nat) (emp : Employee)
    (g : Employee → Employee) (q : Employee → Bool)
    (hfind : l.find? (fun e => e.id == i) = some emp)
    (hnodup : (l.map (·.id)).Nodup)
    (hg : ∀ e, e.id ≠ i → g e = e) :
    (l.map g).countP q + (if q emp then 1 else 0)
      = l.countP q + (if q (g emp) then 1 else 0) := by
  obtain ⟨l₁, l₂, rfl, h1, h2, hid⟩ := exists_decomp_of_find? hfind hnodup
  rw [List.map_append, List.map_cons]
  have m1 : l₁.map g = l₁ := by
    have hc : ∀ x ∈ l₁, g x = x := fun x hx => hg x (h1 x hx)
    rw [List.map_congr_left hc]
    exact List.map_id l₁
  have m2 : l₂.map g = l₂ := by
    have hc : ∀ x ∈ l₂, g x = x := fun x hx => hg x (h2 x hx)
    rw [List.map_congr_left hc]
    exact List.map_id l₂
  rw [m1, m2, List.countP_append, List.countP_cons,
      List.countP_append, List.countP_cons]
  rcases hq1 : q emp <;> rcases hq2 : q (g emp) <;> simp <;> omega

theorem countP_filter_single (l : List Employee) (i : Nat) (emp : Employee)
    (q : Employee → Bool)
    (hfind : l.find? (fun e => e.id == i) = some emp)
    (hnodup : (l.map (·.id)).Nodup) :
    (l.filter (fun e => !(e.id == i))).countP q + (if q emp then 1 else 0)
      = l.countP q := by
  obtain ⟨l₁, l₂, rfl, h1, h2, hid⟩ := exists_decomp_of_find? hfind hnodup
  rw [List.filter_append, List.filter_cons]
  have f1 : l₁.filter (fun e => !(e.id == i)) = l₁ :=
    List.filter_eq_self.mpr (fun x hx => by simp [h1 x hx])
  have f2 : l₂.filter (fun e => !(e.id == i)) = l₂ :=
    List.filter_eq_self.mpr (fun x hx => by simp [h2 x hx])
  rw [f1, f2]
  rw [if_neg (by simp [hid])]
  rw [List.countP_append, List.countP_append, List.countP_cons]
  rcases hq1 : q emp
  · simp
  · simp
    omega

theorem find?_name_isSome_iff (ps : List Process) (n : String) :
    (ps.find? (fun p => p.name == n)).isSome = true ↔ n ∈ ps.map (·.name) := by
  rw [List.find?_isSome]
  constructor
  · rintro ⟨p, hp, hpred⟩
    exact List.mem_map.mpr ⟨p, hp, by simpa using hpred⟩
  · intro hmem
    obtain ⟨p, hp, hn⟩ := List.mem_map.mp hmem
    exact ⟨p, hp, by simp [hn]⟩

/-- No operation creates, deletes or renames processes. -/
theorem names_applyOp (db : DB) (op : Op) :
    (applyOp db op).processes.map (·.name) = db.processes.map (·.name) := by
  cases op <;>
    simp only [applyOp, update_process_vacancy, add_employee, update_employee,
      finishUpdate, delete_employee] <;>
    repeat' split
  all_goals simp only [mapVacancy_names]

theorem Q_add (db : DB) (nm em pot co : String) (pn : Option String)
    (n : String) (p0 p1 : Process)
    (hf0 : db.processes.find? (fun p => p.name == n) = some p0)
    (hf1 : (add_employee db nm em pot co pn).db.processes.find?
      (fun p => p.name == n) = some p1) :
    (holders (add_employee db nm em pot co pn).db n : Int) + p1.vacancy
      = (holders db n : Int) + p0.vacancy := by
  have hp0name : p0.name = n := by simpa using List.find?_some hf0
  by_cases hany : (db.employees.any (fun e =>
      pyLower e.email == pyLower (normEmail em))) = true
  · have hstate : (add_employee db nm em pot co pn).db = db := by
      simp only [add_employee]
      rw [if_pos hany]
    rw [hstate] at hf1 ⊢
    rw [hf0] at hf1
    cases hf1
    rfl
  · cases pn with
    | none =>
      have hstate : (add_employee db nm em pot co none).db =
          { processes := db.processes,
            employees := db.employees ++
              [⟨db.nextEmpId, nm, normEmail em, pot, co, none, none⟩],
            nextEmpId := db.nextEmpId + 1 } := by
        simp only [add_employee]
        rw [if_neg hany]
      rw [hstate] at hf1 ⊢
      rw [hf0] at hf1
      cases hf1
      simp only [holders, countP_append_singleton]
      have hq : ((none : Option String) == some n) = false := by simp
      rw [hq]
      simp
    | some pname =>
      cases hfp : db.processes.find? (fun p => p.name == pname) with
      | none =>
        have hstate : (add_employee db nm em pot co (some pname)).db = db := by
          simp only [add_employee]
          rw [if_neg hany]
          try simp only []
          rw [hfp]
        rw [hstate] at hf1 ⊢
        rw [hf0] at hf1
        cases hf1
        rfl
      | some pr =>
        by_cases hvac : pr.vacancy ≤ 0
        · have hstate : (add_employee db nm em pot co (some pname)).db = db := by
            simp only [add_employee]
            rw [if_neg hany]
            try simp only []
            rw [hfp]
            try simp only []
            rw [if_pos hvac]
          rw [hstate] at hf1 ⊢
          rw [hf0] at hf1
          cases hf1
          rfl
        · by_cases hflt : (db.processes.filter
              (fun p => p.name == pname)).isEmpty = true
          · have hstate : (add_employee db nm em pot co (some pname)).db = db := by
              simp only [add_employee]
              rw [if_neg hany]
              try simp only []
              rw [hfp]
              try simp only []
              rw [if_neg hvac, if_pos hflt]
            rw [hstate] at hf1 ⊢
            rw [hf0] at hf1
            cases hf1
            rfl
          · have hstate : (add_employee db nm em pot co (some pname)).db =
                { processes := mapVacancy db.processes pname
                    (fun v => if 0 < v then v - 1 else 0),
                  employees := db.employees ++
                    [⟨db.nextEmpId, nm, normEmail em, pot, co,
                      some pr.id, some pname⟩],
                  nextEmpId := db.nextEmpId + 1 } := by
              simp only [add_employee]
              rw [if_neg hany]
              try simp only []
              rw [hfp]
              try simp only []
              rw [if_neg hvac, if_neg hflt]
            rw [hstate] at hf1 ⊢
            rw [find?_mapVacancy, hf0] at hf1
            simp only [Option.map_some'] at hf1
            simp only [holders, countP_append_singleton]
            by_cases hpn : pname = n
            · subst hpn
              rw [hf0] at hfp
              cases hfp
              rw [if_pos (by simp [hp0name])] at hf1
              cases hf1
              have hq : ((some pname : Option String) == some pname) = true := by
                simp
              rw [hq]
              show ((db.employees.countP
                  (fun e => e.process_name == some pname) + 1 : Nat) : Int) +
                (if 0 < p0.vacancy then p0.vacancy - 1 else 0)
                = (db.employees.countP
                    (fun e => e.process_name == some pname) : Int) + p0.vacancy
              push_cast
              omega
            · rw [if_neg (by
                simp only [hp0name, beq_iff_eq]
                exact fun hcon => hpn hcon.symm)] at hf1
              cases hf1
              have hq : ((some pname : Option String) == some n) = false := by
                simp [hpn]
              rw [hq]
              simp

theorem Q_delete (db : DB) (i : Nat) (h : WF db) (n : String) (p0 p1 : Process)
    (hf0 : db.processes.find? (fun p => p.name == n) = some p0)
    (hf1 : (delete_employee db i).db.processes.find?
      (fun p => p.name == n) = some p1) :
    (holders (delete_employee db i).db n : Int) + p1.vacancy
      = (holders db n : Int) + p0.vacancy := by
  have hp0name : p0.name = n := by simpa using List.find?_some hf0
  cases hfind : db.employees.find? (fun e => e.id == i) with
  | none =>
    have hstate : (delete_employee db i).db = db := by
      simp only [delete_employee]
      rw [hfind]
    rw [hstate] at hf1 ⊢
    rw [hf0] at hf1
    cases hf1
    rfl
  | some emp =>
    have hflt := filter_isEmpty_false_of_find? hfind
    cases hpn : emp.process_name with
    | none =>
      have hstate : (delete_employee db i).db =
          { processes := db.processes,
            employees := db.employees.filter (fun e => !(e.id == i)),
            nextEmpId := db.nextEmpId } := by
        simp only [delete_employee]
        rw [hfind]
        try simp only []
        rw [if_neg (by rw [hflt]; simp), hpn]
      rw [hstate] at hf1 ⊢
      rw [hf0] at hf1
      cases hf1
      have hcnt := countP_filter_single db.employees i emp
        (fun e => e.process_name == some n) hfind h.idsNodup
      simp only [hpn] at hcnt
      simp only [holders]
      have hq : ((none : Option String) == some n) = false := by simp
      rw [hq] at hcnt
      simp at hcnt
      rw [hcnt]
    | some pn2 =>
      have hstate : (delete_employee db i).db =
          { processes := mapVacancy db.processes pn2 (fun v => v + 1),
            employees := db.employees.filter (fun e => !(e.id == i)),
            nextEmpId := db.nextEmpId } := by
        simp only [delete_employee]
        rw [hfind]
        try simp only []
        rw [if_neg (by rw [hflt]; simp), hpn]
      rw [hstate] at hf1 ⊢
      rw [find?_mapVacancy, hf0] at hf1
      simp only [Option.map_some'] at hf1
      have hcnt := countP_filter_single db.employees i emp
        (fun e => e.process_name == some n) hfind h.idsNodup
      simp only [hpn] at hcnt
      simp only [holders]
      by_cases hpe : pn2 = n
      · subst hpe
        rw [if_pos (by simp [hp0name])] at hf1
        cases hf1
        simp at hcnt
        show ((db.employees.filter (fun e => !(e.id == i))).countP
            (fun e => e.process_name == some pn2) : Int) +
          ({ p0 with vacancy := p0.vacancy + 1 } : Process).vacancy = _
        show ((db.employees.filter (fun e => !(e.id == i))).countP
            (fun e => e.process_name == some pn2) : Int) +
          (p0.vacancy + 1) = _
        omega
      · rw [if_neg (by
          simp only [hp0name, beq_iff_eq]
          exact fun hcon => hpe hcon.symm)] at hf1
        cases hf1
        have hq : ((some pn2 : Option String) == some n) = false := by
          simp [hpe]
        rw [hq] at hcnt
        simp at hcnt
        rw [hcnt]

theorem finishUpdate_db (db : DB) (ps : List Process) (i : Nat)
    (nm m pot co : String) (pid : Option Nat) (pn : Option String)
    (emp : Employee)
    (hfind : db.employees.find? (fun e => e.id == i) = some emp) :
    (finishUpdate db ps i nm m pot co pid pn).db =
      { processes := ps,
        employees := db.employees.map (fun e =>
          if e.id == i then
            { e with
                name := nm, email := m, potential := pot,
                communication := co, process_id := pid, process_name := pn }
          else e),
        nextEmpId := db.nextEmpId } := by
  simp only [finishUpdate]
  rw [if_neg (by rw [filter_isEmpty_false_of_find? hfind]; simp)]

theorem holders_map_update (db : DB) (i : Nat) (emp : Employee)
    (nm m pot co : String) (pid : Option Nat) (pn : Option String) (n : String)
    (hfind : db.employees.find? (fun e => e.id == i) = some emp)
    (hnodup : (db.employees.map (·.id)).Nodup) :
    ((db.employees.map (fun e =>
        if e.id == i then
          { e with
              name := nm, email := m, potential := pot,
              communication := co, process_id := pid, process_name := pn }
        else e)).countP (fun e => e.process_name == some n) : Int)
      = (db.employees.countP (fun e => e.process_name == some n) : Int)
        - (if emp.process_name == some n then 1 else 0)
        + (if pn == some n then 1 else 0) := by
  have hid : emp.id = i := by simpa using List.find?_some hfind
  have hcnt := countP_map_single db.employees i emp
    (fun e =>
      if e.id == i then
        { e with
            name := nm, email := m, potential := pot,
            communication := co, process_id := pid, process_name := pn }
      else e)
    (fun e => e.process_name == some n) hfind hnodup
    (fun e hne => by simp [hne])
  simp only [] at hcnt
  have hvalue : ((if (emp.id == i) = true then
      ({ emp with
          name := nm, email := m, potential := pot, communication := co,
          process_id := pid, process_name := pn }) else emp).process_name
        == some n) = (pn == some n) := by
    rw [if_pos (by simp [hid])]
  simp only [hvalue] at hcnt
  rcases h1 : emp.process_name == some n <;> rcases h2 : pn == some n <;>
    simp [h1, h2] at hcnt ⊢ <;> omega

theorem Q_update (db : DB) (i : Nat) (nm em pot co : String)
    (pn : Option String) (h : WF db) (n : String) (p0 p1 : Process)
    (hf0 : db.processes.find? (fun p => p.name == n) = some p0)
    (hf1 : (update_employee db i nm em pot co pn).db.processes.find?
      (fun p => p.name == n) = some p1) :
    (holders (update_employee db i nm em pot co pn).db n : Int) + p1.vacancy
      = (holders db n : Int) + p0.vacancy := by
  have hp0name : p0.name = n := by simpa using List.find?_some hf0
  by_cases hany : (db.employees.any (fun e =>
      pyLower e.email == pyLower (normEmail em) && e.id != i)) = true
  · have hstate : (update_employee db i nm em pot co pn).db = db := by
      simp only [update_employee]
      rw [if_pos hany]
    rw [hstate] at hf1 ⊢
    rw [hf0] at hf1
    cases hf1
    rfl
  · cases hfind : db.employees.find? (fun e => e.id == i) with
    | none =>
      have hstate : (update_employee db i nm em pot co pn).db = db := by
        simp only [update_employee]
        rw [if_neg hany, hfind]
      rw [hstate] at hf1 ⊢
      rw [hf0] at hf1
      cases hf1
      rfl
    | some emp =>
      by_cases hchg : emp.process_name = pn
      · cases pn with
        | none =>
          have hstate : (update_employee db i nm em pot co none).db =
              { processes := db.processes,
                employees := db.employees.map (fun e =>
                  if e.id == i then
                    { e with
                        name := nm, email := normEmail em, potential := pot,
                        communication := co, process_id := none,
                        process_name := none }
                  else e),
                nextEmpId := db.nextEmpId } := by
            simp only [update_employee]
            rw [if_neg hany, hfind]
            try simp only []
            rw [if_neg (not_not_intro hchg)]
            try simp only []
            exact finishUpdate_db db db.processes i nm (normEmail em) pot co
              none none emp hfind
          rw [hstate] at hf1 ⊢
          rw [hf0] at hf1
          cases hf1
          simp only [holders]
          rw [holders_map_update db i emp nm (normEmail em) pot co
            none none n hfind h.idsNodup]
          simp only [hchg]
          omega
        | some np0 =>
          have hstate : (update_employee db i nm em pot co (some np0)).db =
              { processes := db.processes,
                employees := db.employees.map (fun e =>
                  if e.id == i then
                    { e with
                        name := nm, email := normEmail em, potential := pot,
                        communication := co,
                        process_id := (db.processes.find?
                          (fun p => p.name == np0)).map (·.id),
                        process_name := some np0 }
                  else e),
                nextEmpId := db.nextEmpId } := by
            simp only [update_employee]
            rw [if_neg hany, hfind]
            try simp only []
            rw [if_neg (not_not_intro hchg)]
            try simp only []
            exact finishUpdate_db db db.processes i nm (normEmail em) pot co
              ((db.processes.find? (fun p => p.name == np0)).map (·.id))
              (some np0) emp hfind
          rw [hstate] at hf1 ⊢
          rw [hf0] at hf1
          cases hf1
          simp only [holders]
          rw [holders_map_update db i emp nm (normEmail em) pot co
            ((db.processes.find? (fun p => p.name == np0)).map (·.id))
            (some np0) n hfind h.idsNodup]
          simp only [hchg]
          omega
      · cases hold : emp.process_name with
        | none =>
          cases pn with
          | none => exact absurd hold hchg
          | some np =>
            cases hfpnp : db.processes.find? (fun p => p.name == np) with
            | none =>
              have hstate :
                  (update_employee db i nm em pot co (some np)).db = db := by
                simp only [update_employee]
                rw [if_neg hany, hfind]
                try simp only []
                rw [if_pos hchg]
                try simp only []
                rw [hold]
                try simp only []
                rw [hfpnp]
              rw [hstate] at hf1 ⊢
              rw [hf0] at hf1
              cases hf1
              rfl
            | some pr =>
              by_cases hvac : pr.vacancy ≤ 0
              · have hstate :
                    (update_employee db i nm em pot co (some np)).db = db := by
                  simp only [update_employee]
                  rw [if_neg hany, hfind]
                  try simp only []
                  rw [if_pos hchg]
                  try simp only []
                  rw [hold]
                  try simp only []
                  rw [hfpnp]
                  try simp only []
                  rw [if_pos hvac]
                rw [hstate] at hf1 ⊢
                rw [hf0] at hf1
                cases hf1
                rfl
              · by_cases hflt2 : (db.processes.filter
                    (fun p => p.name == np)).isEmpty = true
                · have hstate :
                      (update_employee db i nm em pot co (some np)).db = db := by
                    simp only [update_employee]
                    rw [if_neg hany, hfind]
                    try simp only []
                    rw [if_pos hchg]
                    try simp only []
                    rw [hold]
                    try simp only []
                    rw [hfpnp]
                    try simp only []
                    rw [if_neg hvac, if_pos hflt2]
                  rw [hstate] at hf1 ⊢
                  rw [hf0] at hf1
                  cases hf1
                  rfl
                · have hstate :
                      (update_employee db i nm em pot co (some np)).db =
                      { processes := mapVacancy db.processes np
                          (fun v => if 0 < v then v - 1 else 0),
                        employees := db.employees.map (fun e =>
                          if e.id == i then
                            { e with
                                name := nm, email := normEmail em,
                                potential := pot, communication := co,
                                process_id := some pr.id,
                                process_name := some np }
                          else e),
                        nextEmpId := db.nextEmpId } := by
                    simp only [update_employee]
                    rw [if_neg hany, hfind]
                    try simp only []
                    rw [if_pos hchg]
                    try simp only []
                    rw [hold]
                    try simp only []
                    rw [hfpnp]
                    try simp only []
                    rw [if_neg hvac, if_neg hflt2]
                    exact finishUpdate_db db _ i nm (normEmail em) pot co
                      (some pr.id) (some np) emp hfind
                  rw [hstate] at hf1 ⊢
                  rw [find?_mapVacancy, hf0] at hf1
                  simp only [Option.map_some'] at hf1
                  simp only [holders]
                  rw [holders_map_update db i emp nm (normEmail em) pot co
                    (some pr.id) (some np) n hfind h.idsNodup]
                  simp only [hold]
                  by_cases hnp : np = n
                  · subst hnp
                    rw [if_pos (by simp [hp0name])] at hf1
                    cases hf1
                    rw [hf0] at hfpnp
                    cases hfpnp
                    have hv1 : (({ p0 with vacancy :=
                        if 0 < p0.vacancy then p0.vacancy - 1 else 0 } :
                          Process)).vacancy =
                        if 0 < p0.vacancy then p0.vacancy - 1 else 0 := rfl
                    rw [hv1]
                    simp
                    rw [if_pos (show (0 : Int) < p0.vacancy by omega)]
                    omega
                  · rw [if_neg (by
                      simp only [hp0name, beq_iff_eq]
                      exact fun hcon => hnp hcon.symm)] at hf1
                    cases hf1
                    simp [hnp]
        | some oldp =>
          cases pn with
          | none =>
            have hstate :
                (update_employee db i nm em pot co none).db =
                { processes := mapVacancy db.processes oldp (fun v => v + 1),
                  employees := db.employees.map (fun e =>
                    if e.id == i then
                      { e with
                          name := nm, email := normEmail em, potential := pot,
                          communication := co, process_id := none,
                          process_name := none }
                    else e),
                  nextEmpId := db.nextEmpId } := by
              simp only [update_employee]
              rw [if_neg hany, hfind]
              try simp only []
              rw [if_pos hchg]
              try simp only []
              rw [hold]
              try simp only []
              exact finishUpdate_db db _ i nm (normEmail em) pot co
                none none emp hfind
            rw [hstate] at hf1 ⊢
            rw [find?_mapVacancy, hf0] at hf1
            simp only [Option.map_some'] at hf1
            simp only [holders]
            rw [holders_map_update db i emp nm (normEmail em) pot co
              none none n hfind h.idsNodup]
            simp only [hold]
            by_cases holdn : oldp = n
            · subst holdn
              rw [if_pos (by simp [hp0name])] at hf1
              cases hf1
              have hv1 : (({ p0 with vacancy := p0.vacancy + 1 } :
                  Process)).vacancy = p0.vacancy + 1 := rfl
              rw [hv1]
              simp
            · rw [if_neg (by
                simp only [hp0name, beq_iff_eq]
                exact fun hcon => holdn hcon.symm)] at hf1
              cases hf1
              simp [holdn]
          | some np =>
            have hone : oldp ≠ np := fun hcon => hchg (by rw [hold, hcon])
            cases hfpnp : (mapVacancy db.processes oldp
                (fun v => v + 1)).find? (fun p => p.name == np) with
            | none =>
              have hstate :
                  (update_employee db i nm em pot co (some np)).db = db := by
                simp only [update_employee]
                rw [if_neg hany, hfind]
                try simp only []
                rw [if_pos hchg]
                try simp only []
                rw [hold]
                try simp only []
                rw [hfpnp]
              rw [hstate] at hf1 ⊢
              rw [hf0] at hf1
              cases hf1
              rfl
            | some pr =>
              by_cases hvac : pr.vacancy ≤ 0
              · have hstate :
                    (update_employee db i nm em pot co (some np)).db = db := by
                  simp only [update_employee]
                  rw [if_neg hany, hfind]
                  try simp only []
                  rw [if_pos hchg]
                  try simp only []
                  rw [hold]
                  try simp only []
                  rw [hfpnp]
                  try simp only []
                  rw [if_pos hvac]
                rw [hstate] at hf1 ⊢
                rw [hf0] at hf1
                cases hf1
                rfl
              · by_cases hflt2 : ((mapVacancy db.processes oldp
                    (fun v => v + 1)).filter
                      (fun p => p.name == np)).isEmpty = true
                · have hstate :
                      (update_employee db i nm em pot co (some np)).db = db := by
                    simp only [update_employee]
                    rw [if_neg hany, hfind]
                    try simp only []
                    rw [if_pos hchg]
                    try simp only []
                    rw [hold]
                    try simp only []
                    rw [hfpnp]
                    try simp only []
                    rw [if_neg hvac, if_pos hflt2]
                  rw [hstate] at hf1 ⊢
                  rw [hf0] at hf1
                  cases hf1
                  rfl
                · have hstate :
                      (update_employee db i nm em pot co (some np)).db =
                      { processes := mapVacancy (mapVacancy db.processes oldp
                          (fun v => v + 1)) np
                          (fun v => if 0 < v then v - 1 else 0),
                        employees := db.employees.map (fun e =>
                          if e.id == i then
                            { e with
                                name := nm, email := normEmail em,
                                potential := pot, communication := co,
                                process_id := some pr.id,
                                process_name := some np }
                          else e),
                        nextEmpId := db.nextEmpId } := by
                    simp only [update_employee]
                    rw [if_neg hany, hfind]
                    try simp only []
                    rw [if_pos hchg]
                    try simp only []
                    rw [hold]
                    try simp only []
                    rw [hfpnp]
                    try simp only []
                    rw [if_neg hvac, if_neg hflt2]
                    exact finishUpdate_db db _ i nm (normEmail em) pot co
                      (some pr.id) (some np) emp hfind
                  rw [hstate] at hf1 ⊢
                  rw [find?_mapVacancy, find?_mapVacancy, hf0] at hf1
                  simp only [Option.map_some'] at hf1
                  simp only [holders]
                  rw [holders_map_update db i emp nm (normEmail em) pot co
                    (some pr.id) (some np) n hfind h.idsNodup]
                  simp only [hold]
                  by_cases holdn : oldp = n
                  · subst holdn
                    have hrow1 : (if (p0.name == oldp) = true then
                        ({ p0 with vacancy := p0.vacancy + 1 } : Process)
                        else p0) = { p0 with vacancy := p0.vacancy + 1 } := by
                      rw [if_pos (by simp [hp0name])]
                    rw [hrow1] at hf1
                    have hrow2 : ((({ p0 with vacancy := p0.vacancy + 1 } :
                        Process)).name == np) = false := by
                      show (p0.name == np) = false
                      simp [hp0name, hone]
                    rw [if_neg (by simp [hrow2])] at hf1
                    cases hf1
                    have hv1 : (({ p0 with vacancy := p0.vacancy + 1 } :
                        Process)).vacancy = p0.vacancy + 1 := rfl
                    rw [hv1]
                    simp [Ne.symm hone]
                  · by_cases hnpn : np = n
                    · subst hnpn
                      have hrow1 : (if (p0.name == oldp) = true then
                          ({ p0 with vacancy := p0.vacancy + 1 } : Process)
                          else p0) = p0 := by
                        rw [if_neg (by
                          simp only [hp0name, beq_iff_eq]
                          exact fun hcon => holdn hcon.symm)]
                      rw [hrow1] at hf1
                      rw [if_pos (by simp [hp0name])] at hf1
                      cases hf1
                      rw [find?_mapVacancy, hf0] at hfpnp
                      simp only [Option.map_some'] at hfpnp
                      rw [hrow1] at hfpnp
                      cases hfpnp
                      have hv1 : (({ p0 with vacancy :=
                          if 0 < p0.vacancy then p0.vacancy - 1 else 0 } :
                            Process)).vacancy =
                          if 0 < p0.vacancy then p0.vacancy - 1 else 0 := rfl
                      rw [hv1]
                      simp [holdn]
                      omega
                    · have hrow1 : (if (p0.name == oldp) = true then
                          ({ p0 with vacancy := p0.vacancy + 1 } : Process)
                          else p0) = p0 := by
                        rw [if_neg (by
                          simp only [hp0name, beq_iff_eq]
                          exact fun hcon => holdn hcon.symm)]
                      rw [hrow1] at hf1
                      rw [if_neg (by
                        simp only [hp0name, beq_iff_eq]
                        exact fun hcon => hnpn hcon.symm)] at hf1
                      cases hf1
                      simp [holdn, hnpn]

theorem Q_applyOp (db : DB) (op : Op) (hop : op.isLedger = true) (h : WF db)
    (n : String) (p0 p1 : Process)
    (hf0 : db.processes.find? (fun p => p.name == n) = some p0)
    (hf1 : (applyOp db op).processes.find? (fun p => p.name == n) = some p1) :
    (holders (applyOp db op) n : Int) + p1.vacancy
      = (holders db n : Int) + p0.vacancy := by
  cases op with
  | adjust pn c => simp [Op.isLedger] at hop
  | add nm em pot co pn =>
    exact Q_add db nm em pot co pn n p0 p1 hf0 hf1
  | update i nm em pot co pn =>
    exact Q_update db i nm em pot co pn h n p0 p1 hf0 hf1
  | delete i =>
    exact Q_delete db i h n p0 p1 hf0 hf1

theorem conservation_aux (ops : List Op) : ∀ (db : DB), WF db →
    (∀ op ∈ ops, op.isLedger = true) → ∀ (n : String) (p0 p1 : Process),
    db.processes.find? (fun p => p.name == n) = some p0 →
    (applyOps db ops).processes.find? (fun p => p.name == n) = some p1 →
    (holders (applyOps db ops) n : Int) + p1.vacancy
      = (holders db n : Int) + p0.vacancy := by
  induction ops with
  | nil =>
    intro db h hled n p0 p1 hf0 hf1
    simp only [applyOps, List.foldl_nil] at hf1 ⊢
    rw [hf0] at hf1
    cases hf1
    rfl
  | cons op rest ih =>
    intro db h hled n p0 p1 hf0 hf1
    have hstep : applyOps db (op :: rest) = applyOps (applyOp db op) rest := rfl
    rw [hstep] at hf1 ⊢
    have hsome : ((applyOp db op).processes.find?
        (fun p => p.name == n)).isSome = true := by
      rw [find?_name_isSome_iff, names_applyOp, ← find?_name_isSome_iff, hf0]
      rfl
    obtain ⟨pmid, hpmid⟩ := Option.isSome_iff_exists.mp hsome
    have h1 := Q_applyOp db op (hled op (List.mem_cons_self op rest)) h
      n p0 pmid hf0 hpmid
    have h2 := ih (applyOp db op) (WF_applyOp db op h)
      (fun o ho => hled o (List.mem_cons_of_mem _ ho)) n pmid p1 hpmid hf1
    omega

/-- C6: starting from a well-formed state, under any sequence of
`add_employee` / `update_employee` / `delete_employee` calls the quantity
`holders + vacancy` is conserved for every process in the catalog: each
successful assignment moves exactly one unit from `vacancy` to `holders`
and each release moves it back.  In particular, starting with no employee
assigned to the process, the number of employees currently holding it
equals its initial vacancy minus its current vacancy. -/
theorem conservation_invariant (db : DB) (ops : List Op) (h : WF db)
    (hled : ∀ op ∈ ops, op.isLedger = true) (n : String) (p0 p1 : Process)
    (hf0 : db.processes.find? (fun p => p.name == n) = some p0)
    (hf1 : (applyOps db ops).processes.find? (fun p => p.name == n) = some p1) :
    (holders (applyOps db ops) n : Int) + p1.vacancy
      = (holders db n : Int) + p0.vacancy ∧
    (holders db n = 0 →
      (holders (applyOps db ops) n : Int) = p0.vacancy - p1.vacancy) := by
  have main := conservation_aux ops db h hled n p0 p1 hf0 hf1
  refine ⟨main, fun h0 => ?_⟩
  rw [h0] at main
  push_cast at main ⊢
  omega

/-- Witness for C6: two assignments onto a vacancy-2 process leave
2 − 0 = 2 holders. -/
theorem conservation_invariant_witness :
    (holders (applyOps ⟨[⟨1, "P", "Sales", "Good", 2⟩], [], 1⟩
      [.add "a" "a@x.com" "Sales" "Good" (some "P"),
       .add "b" "b@x.com" "Sales" "Good" (some "P")]) "P" : Int)
      = 2 - 0 :=
  (conservation_invariant ⟨[⟨1, "P", "Sales", "Good", 2⟩], [], 1⟩
      [.add "a" "a@x.com" "Sales" "Good" (some "P"),
       .add "b" "b@x.com" "Sales" "Good" (some "P")]
      ⟨by decide, by decide, by decide, by decide⟩
      (by decide) "P" ⟨1, "P", "Sales", "Good", 2⟩ ⟨1, "P", "Sales", "Good", 0⟩
      (by decide) (by decide)).2 (by decide)
